import Mathlib

/-!
# Network-Packet-Inspection / Protocol-Validation system: verification development

Shallow embedding of the C++ sources:

* `dfa_matcher.cpp` — `PatternMatcher` (substring signature detector) and
  `DfaMatcher` (flat transition-table matcher with optional payload detector);
* `http_pda_validator.cpp` — outer line-oriented HTTP validator returning
  `Valid / Invalid / Incomplete`;
* `PDAEngine.cpp` — character-level pushdown-flavoured HTTP structure engine;
* `aho_corasick.cpp` — multi-pattern trie automaton with failure links.

Strings are modelled as `List Char`; `unsigned char` as `Nat`; C++ `int` as
`Int`.  All definitions are executable.
-/

namespace NPIPV

/-! ## Character helpers (C locale) -/

/-- `std::tolower` on an ASCII character, as the C++ sources apply it
(`std::tolower(static_cast<unsigned char>(c))`). -/
def toLowerChar (c : Char) : Char :=
  if 'A' ≤ c ∧ c ≤ 'Z' then Char.ofNat (c.toNat + 32) else c

/-- Lower-case a whole character sequence. -/
def lowerStr (s : List Char) : List Char := s.map toLowerChar

/-! ## `PatternMatcher` (dfa_matcher.cpp, lines 175–207) -/

/-- `PatternMatcher`: holds the configured malicious signature list
(`malicious_patterns_`).  The CNF grammar member is also built by the C++
constructor but is never consulted by any matching decision, so it is not
part of the behavioural model. -/
structure PatternMatcher where
  malicious_patterns : List (List Char)
deriving DecidableEq

/-- `PatternMatcher::matches_pattern`: lower-case both strings and test
`lower_payload.find(lower_pattern) != std::string::npos`, i.e. the lowered
pattern occurs as a contiguous substring of the lowered payload. -/
def PatternMatcher.matches_pattern (payload pattern : List Char) : Bool :=
  decide (lowerStr pattern <:+: lowerStr payload)

/-- `PatternMatcher::has_malicious_pattern`: first-hit short-circuit loop over
the configured signatures. -/
def PatternMatcher.has_malicious_pattern (m : PatternMatcher) (payload : List Char) : Bool :=
  m.malicious_patterns.any fun pattern => PatternMatcher.matches_pattern payload pattern

/-- `PatternMatcher::get_matched_patterns`: collect every matching signature in
configuration order. -/
def PatternMatcher.get_matched_patterns (m : PatternMatcher) (payload : List Char) :
    List (List Char) :=
  m.malicious_patterns.filter fun pattern => PatternMatcher.matches_pattern payload pattern

/-! ## `DfaMatcher` (dfa_matcher.cpp, lines 213–255) -/

/-- `DfaMatcher`: start state, transition map
(`unordered_map<TransitionKey, State>`), accepting map
(`unordered_map<State, bool>`), optional payload detector. -/
structure DfaMatcher where
  start_state : Int
  transitions : Int × Nat → Option Int
  accepting : Int → Option Bool
  pattern_matcher : Option PatternMatcher

/-- The `DfaMatcher(State start_state)` constructor: empty maps, no detector. -/
def DfaMatcher.init (start_state : Int) : DfaMatcher :=
  ⟨start_state, fun _ => none, fun _ => none, none⟩

/-- `DfaMatcher::add_accepting_state` (`accepting_[s] = true`). -/
def DfaMatcher.add_accepting_state (m : DfaMatcher) (s : Int) : DfaMatcher :=
  { m with accepting := fun q => if q = s then some true else m.accepting q }

/-- `DfaMatcher::add_transition` (`transitions_[{from, symbol}] = to`,
last write wins). -/
def DfaMatcher.add_transition (m : DfaMatcher) (f : Int) (symbol : Nat) (t : Int) : DfaMatcher :=
  { m with transitions := fun k => if k = (f, symbol) then some t else m.transitions k }

/-- Loop body of `DfaMatcher::matches`: for each byte look up
`(current, byte)`; a missing transition returns `false` immediately;
after the input is consumed, accept iff the reached state is marked. -/
def DfaMatcher.matchesFrom (m : DfaMatcher) : Int → List Nat → Bool
  | current, [] => (m.accepting current).getD false
  | current, ch :: rest =>
    match m.transitions (current, ch) with
    | none => false
    | some nxt => m.matchesFrom nxt rest

/-- `DfaMatcher::matches(const std::vector<unsigned char>&)`. -/
def DfaMatcher.matches (m : DfaMatcher) (data : List Nat) : Bool :=
  m.matchesFrom m.start_state data

/-- `DfaMatcher::matches(const std::string&)`: bytes of the string. -/
def DfaMatcher.matchesStr (m : DfaMatcher) (data : List Char) : Bool :=
  m.matches (data.map Char.toNat)

/-- `DfaMatcher::set_pattern_matcher`. -/
def DfaMatcher.set_pattern_matcher (m : DfaMatcher) (pm : PatternMatcher) : DfaMatcher :=
  { m with pattern_matcher := some pm }

/-- `DfaMatcher::inspect_payload`: no detector configured means "benign". -/
def DfaMatcher.inspect_payload (m : DfaMatcher) (payload : List Char) : Bool :=
  match m.pattern_matcher with
  | none => false
  | some pm => pm.has_malicious_pattern payload

/-- `DfaMatcher::get_payload_anomalies`: no detector configured means no
findings. -/
def DfaMatcher.get_payload_anomalies (m : DfaMatcher) (payload : List Char) :
    List (List Char) :=
  match m.pattern_matcher with
  | none => []
  | some pm => pm.get_matched_patterns payload

/-! ## Spec-side notions for the matcher claims -/

/-- Spec side (claim wording): run the transition table over all bytes from the
start state; the result is the reached state provided every single
`(state, byte)` lookup is defined along the way. -/
def runDfa (m : DfaMatcher) (data : List Nat) : Option Int :=
  data.foldlM (fun s ch => m.transitions (s, ch)) m.start_state

/-- Spec side (claim wording): signature `sig` occurs case-insensitively as a
substring of `payload`. -/
def OccursCI (sig payload : List Char) : Prop :=
  lowerStr sig <:+: lowerStr payload

instance (sig payload : List Char) : Decidable (OccursCI sig payload) := by
  unfold OccursCI
  infer_instance

/-- The example transition table of the claim:
`{0-'G'->1, 1-'E'->2, 2-'T'->3, 3 accepting}`. -/
def getDfa : DfaMatcher :=
  ((((DfaMatcher.init 0).add_transition 0 'G'.toNat 1).add_transition
      1 'E'.toNat 2).add_transition 2 'T'.toNat 3).add_accepting_state 3

/-! ### Supporting lemmas -/

theorem matchesFrom_eq_runFrom (m : DfaMatcher) :
    ∀ (data : List Nat) (s : Int),
      m.matchesFrom s data = true ↔
        ∃ t, data.foldlM (fun q ch => m.transitions (q, ch)) s = some t ∧
          (m.accepting t).getD false = true := by
  intro data
  induction data with
  | nil =>
    intro s
    simp [DfaMatcher.matchesFrom, List.foldlM]
  | cons ch rest ih =>
    intro s
    simp only [DfaMatcher.matchesFrom, List.foldlM]
    cases h : m.transitions (s, ch) with
    | none => simp
    | some nxt => simpa using ih nxt

theorem occursCI_iff_matches (payload pattern : List Char) :
    PatternMatcher.matches_pattern payload pattern = true ↔ OccursCI pattern payload := by
  unfold PatternMatcher.matches_pattern OccursCI
  exact decide_eq_true_iff

theorem matches_pattern_eq_decide (payload pattern : List Char) :
    PatternMatcher.matches_pattern payload pattern = decide (OccursCI pattern payload) := by
  unfold PatternMatcher.matches_pattern OccursCI
  rfl

/-! ## Claim theorems: transition-table matcher and payload detector -/

/-- **C5** — `DfaMatcher::matches` is strict whole-string acceptance: it starts
at the start state, returns `false` as soon as a `(state, byte)` pair has no
defined transition, and otherwise accepts iff the state reached after all the
bytes is marked accepting; with the table `{0-'G'->1, 1-'E'->2, 2-'T'->3,
3 accepting}`, `matches("GET")` is `true` and `matches("GETX")` is `false`. -/
theorem c5_dfa_matches_whole_string :
    (∀ (m : DfaMatcher) (data : List Nat),
        m.matches data = true ↔
          ∃ t, runDfa m data = some t ∧ (m.accepting t).getD false = true)
    ∧ getDfa.matchesStr "GET".toList = true
    ∧ getDfa.matchesStr "GETX".toList = false := by
  refine ⟨fun m data => matchesFrom_eq_runFrom m data m.start_state, by decide, by decide⟩

/-- **C7** — `get_matched_patterns` returns exactly the configured signatures
that occur case-insensitively as substrings of the payload, in configuration
order with their configured casing preserved (it is a filter of the
configuration list), and `has_malicious_pattern` is `true` iff that list is
non-empty; with patterns `["union select", "<script"]` the payload
`"id=1 UNION SELECT *"` is malicious and the matched list contains
`"union select"`. -/
theorem c7_payload_detector_exact_matches :
    (∀ (patterns : List (List Char)) (payload : List Char),
        (PatternMatcher.mk patterns).get_matched_patterns payload
            = patterns.filter (fun sig => decide (OccursCI sig payload))
          ∧ ((PatternMatcher.mk patterns).has_malicious_pattern payload = true ↔
              (PatternMatcher.mk patterns).get_matched_patterns payload ≠ []))
    ∧ (PatternMatcher.mk ["union select".toList, "<script".toList]).has_malicious_pattern
        "id=1 UNION SELECT *".toList = true
    ∧ "union select".toList ∈
        (PatternMatcher.mk ["union select".toList, "<script".toList]).get_matched_patterns
          "id=1 UNION SELECT *".toList := by
  refine ⟨fun patterns payload => ⟨?_, ?_⟩, by decide, by decide⟩
  · unfold PatternMatcher.get_matched_patterns
    exact List.filter_congr fun sig _ => matches_pattern_eq_decide payload sig
  · unfold PatternMatcher.has_malicious_pattern PatternMatcher.get_matched_patterns
    rw [List.any_eq_true]
    rw [Ne, List.filter_eq_nil_iff]
    push_neg
    simp only [Bool.not_eq_false]

/-- **C8** — when no pattern matcher (detector) is configured on a
`DfaMatcher`, `inspect_payload` returns `false` and `get_payload_anomalies`
returns the empty list for every payload; absence of a detector is not an
error. -/
theorem c8_no_detector_fails_open :
    ∀ (m : DfaMatcher) (payload : List Char),
      m.pattern_matcher = none →
        m.inspect_payload payload = false ∧ m.get_payload_anomalies payload = [] := by
  intro m payload h
  unfold DfaMatcher.inspect_payload DfaMatcher.get_payload_anomalies
  rw [h]
  exact ⟨rfl, rfl⟩

/-- Witness for C8: a freshly constructed matcher has no detector, and the
inspection calls report "benign" / no findings on a concrete payload. -/
theorem c8_no_detector_fails_open_witness :
    (DfaMatcher.init 0).pattern_matcher = none
    ∧ ((DfaMatcher.init 0).inspect_payload "x".toList = false
       ∧ (DfaMatcher.init 0).get_payload_anomalies "x".toList = []) :=
  ⟨rfl, c8_no_detector_fails_open (DfaMatcher.init 0) "x".toList rfl⟩

/-- **C9** — if the configured signature list contains the empty string then
every payload (the empty payload included) is flagged malicious and the empty
string appears in the matched list, because the empty string occurs as a
substring of every payload. -/
theorem c9_empty_pattern_matches_everything :
    ∀ (patterns : List (List Char)) (payload : List Char),
      [] ∈ patterns →
        (PatternMatcher.mk patterns).has_malicious_pattern payload = true
        ∧ [] ∈ (PatternMatcher.mk patterns).get_matched_patterns payload := by
  intro patterns payload h
  have hmatch : PatternMatcher.matches_pattern payload [] = true := by
    unfold PatternMatcher.matches_pattern lowerStr
    simp
  constructor
  · exact List.any_eq_true.mpr ⟨[], h, hmatch⟩
  · exact List.mem_filter.mpr ⟨h, hmatch⟩

/-- Witness for C9: with the configured list `[""]` (which contains the empty
string), the concrete payload `"x"` — and by the theorem any payload — is
flagged and the empty string is in the matched list. -/
theorem c9_empty_pattern_matches_everything_witness :
    ([] ∈ ([[]] : List (List Char)))
    ∧ ((PatternMatcher.mk [[]]).has_malicious_pattern ['x'] = true
       ∧ [] ∈ (PatternMatcher.mk [[]]).get_matched_patterns ['x']) :=
  ⟨by decide, c9_empty_pattern_matches_everything [[]] ['x'] (by decide)⟩

/-! ## Outer HTTP validator (`http_pda_validator.cpp`) -/

/-- `HttpPdaValidator::Result`. -/
inductive HttpResult
  | Valid
  | Invalid
  | Incomplete
deriving DecidableEq, Repr

/-- Default-locale `isspace`, the whitespace set that `std::istringstream`
token extraction skips. -/
def isSpaceCpp (c : Char) : Bool :=
  c == ' ' || c == '\t' || c == '\n' || c == '\x0b' || c == '\x0c' || c == '\r'

/-- `std::getline(stream, line)` over the whole message: lines are the chunks
between `'\n'` delimiters; a final chunk not ended by `'\n'` still counts when
non-empty; `getline` at end of input fails, so a trailing `'\n'` produces no
extra empty line and the empty message has no lines at all. -/
def splitLinesAux : List Char → List Char → List (List Char)
  | [], acc => [acc.reverse]
  | '\n' :: [], acc => [acc.reverse]
  | '\n' :: rest, acc => acc.reverse :: splitLinesAux rest []
  | c :: rest, acc => splitLinesAux rest (c :: acc)

/-- All lines `std::getline` yields from a message. -/
def splitLines : List Char → List (List Char)
  | [] => []
  | s => splitLinesAux s []

/-- Repeated `istringstream >> token`: the whitespace-separated tokens. -/
def tokenizeAux : List Char → List Char → List (List Char)
  | [], acc => if acc = [] then [] else [acc.reverse]
  | c :: rest, acc =>
    if isSpaceCpp c then
      if acc = [] then tokenizeAux rest [] else acc.reverse :: tokenizeAux rest []
    else tokenizeAux rest (c :: acc)

/-- Tokens of a line, as `iss >> method >> path >> version` would extract. -/
def tokenize (s : List Char) : List (List Char) :=
  tokenizeAux s []

/-- `HttpPdaValidator::parse_request_line`: three whitespace-separated tokens
must be extractable, the third must be `HTTP/1.1` or `HTTP/1.0`; on success a
`R` marker is pushed. -/
def parse_request_line (stack : List Char) (line : List Char) : Option (List Char) :=
  match tokenize line with
  | _ :: _ :: version :: _ =>
    if version = "HTTP/1.1".toList ∨ version = "HTTP/1.0".toList then some ('R' :: stack)
    else none
  | _ => none

/-- `HttpPdaValidator::is_header_continuation`. -/
def is_header_continuation (line : List Char) : Bool :=
  match line with
  | [] => false
  | c :: _ => c == ' ' || c == '\t'

/-- `HttpPdaValidator::parse_header_line`: a continuation line requires an `H`
marker on top of the stack; otherwise the line needs a colon that is not its
first character (`colon_pos != npos && colon_pos != 0`), pushing `H`. -/
def parse_header_line (stack : List Char) (line : List Char) : Option (List Char) :=
  if is_header_continuation line then
    if stack.head? = some 'H' then some stack else none
  else if ':' ∈ line then
    if line.head? = some ':' then none else some ('H' :: stack)
  else none

/-- `if (!line.empty() && line.back() == '\r') line.pop_back();` -/
def dropTrailingCR (line : List Char) : List Char :=
  match line.getLast? with
  | some '\r' => line.dropLast
  | _ => line

/-- Header loop of `HttpPdaValidator::validate`: a (CR-stripped) empty line
means the terminating blank line was seen (`Valid`); a header line that fails
to parse is `Invalid`; running out of lines first is `Incomplete`. -/
def validateLines (stack : List Char) : List (List Char) → HttpResult
  | [] => HttpResult.Incomplete
  | line :: rest =>
    let l := dropTrailingCR line
    if l = [] then HttpResult.Valid
    else
      match parse_header_line stack l with
      | none => HttpResult.Invalid
      | some stack1 => validateLines stack1 rest

/-- `HttpPdaValidator::validate`. -/
def httpValidate (msg : List Char) : HttpResult :=
  match splitLines msg with
  | [] => HttpResult.Incomplete
  | first :: rest =>
    match parse_request_line [] first with
    | none => HttpResult.Invalid
    | some stack => validateLines stack rest

/-! ## PDAEngine (`PDAEngine.cpp`) -/

/-- `PDAState` of `PDAEngine.hpp`. -/
inductive PDAState
  | START
  | METHOD
  | SP1
  | URI
  | SP2
  | VERSION
  | REQUEST_LINE_CR
  | HEADERS
  | HEADER_NAME
  | HEADER_COLON
  | HEADER_VALUE
  | HEADER_CR
  | BODY
  | ACCEPT
  | ERROR
deriving DecidableEq, Repr

/-- The mutable fields of `PDAEngine` that the character loop manipulates
(the human-readable trace is not modelled; it never influences the result). -/
structure PDAEngineSt where
  state : PDAState
  st : List Char
  lastWasCR : Bool
  consecutiveCRLFs : Int
  headers : List (List Char × List Char)
  currentHeaderName : List Char
  currentHeaderValue : List Char
  contentLengthRemaining : Int
  bodyBytesConsumed : Int
deriving DecidableEq, Repr

/-- `PDAEngine::isMethodChar` (`std::isupper`). -/
def isMethodChar (c : Char) : Bool := 'A' ≤ c && c ≤ 'Z'

/-- `PDAEngine::isURIChar`. -/
def isURIChar (c : Char) : Bool :=
  c.isAlphanum || c == '/' || c == '.' || c == '-' || c == '_' || c == '?' ||
    c == '=' || c == '&' || c == '%'

/-- `PDAEngine::isVersionChar`. -/
def isVersionChar (c : Char) : Bool :=
  c.isAlphanum || c == '.' || c == '/'

/-- `headers[name] = value` on `std::unordered_map`: overwrite or append. -/
def insertHeader (hs : List (List Char × List Char)) (k v : List Char) :
    List (List Char × List Char) :=
  match hs with
  | [] => [(k, v)]
  | (k1, v1) :: rest => if k1 = k then (k, v) :: rest else (k1, v1) :: insertHeader rest k v

/-- `headers.find(name)`. -/
def findHeader (hs : List (List Char × List Char)) (k : List Char) : Option (List Char) :=
  (hs.find? fun p => decide (p.1 = k)).map (·.2)

/-- Drop trailing characters satisfying `p` (the `while (...) pop_back()`
trimming loops). -/
def trimTrailingIf (p : Char → Bool) (l : List Char) : List Char :=
  (l.reverse.dropWhile p).reverse

/-- Digit run to number. -/
def digitsToNat (ds : List Char) : Nat :=
  ds.foldl (fun acc d => acc * 10 + (d.toNat - '0'.toNat)) 0

/-- `istringstream iss(value); iss >> len` on an `int`: skip leading
whitespace, optional sign, then a non-empty digit run; trailing characters are
simply left unread; extraction fails when no digit follows.  (Overflow is not
modelled; the values exercised here are small.) -/
def parseCppInt (s : List Char) : Option Int :=
  let s1 := s.dropWhile fun c => isSpaceCpp c
  let core :=
    match s1 with
    | '-' :: rest => (rest.takeWhile Char.isDigit, true)
    | '+' :: rest => (rest.takeWhile Char.isDigit, false)
    | _ => (s1.takeWhile Char.isDigit, false)
  if core.1 = [] then none
  else if core.2 then some (-(digitsToNat core.1 : Int)) else some (digitsToNat core.1 : Int)

/-- One character of `PDAEngine::validate`'s `switch`.  The C++ `return false`
branches are modelled by entering the absorbing `ERROR` state; the acceptance
check after the loop rejects `ERROR`, so the overall result agrees. -/
def pdaStep (s : PDAEngineSt) (c : Char) : PDAEngineSt :=
  match s.state with
  | PDAState.START =>
    if isMethodChar c then
      { s with state := PDAState.METHOD, consecutiveCRLFs := 0, lastWasCR := false }
    else { s with state := PDAState.ERROR }
  | PDAState.METHOD =>
    if isMethodChar c then { s with lastWasCR := false, consecutiveCRLFs := 0 }
    else if c = ' ' then
      { s with state := PDAState.SP1, lastWasCR := false, consecutiveCRLFs := 0 }
    else { s with state := PDAState.ERROR }
  | PDAState.SP1 =>
    if isURIChar c then
      { s with state := PDAState.URI, lastWasCR := false, consecutiveCRLFs := 0 }
    else { s with state := PDAState.ERROR }
  | PDAState.URI =>
    if isURIChar c then { s with lastWasCR := false, consecutiveCRLFs := 0 }
    else if c = ' ' then
      { s with state := PDAState.SP2, lastWasCR := false, consecutiveCRLFs := 0 }
    else { s with state := PDAState.ERROR }
  | PDAState.SP2 =>
    if isVersionChar c then
      { s with state := PDAState.VERSION, lastWasCR := false, consecutiveCRLFs := 0 }
    else { s with state := PDAState.ERROR }
  | PDAState.VERSION =>
    if isVersionChar c then s
    else if c = '\r' then { s with state := PDAState.REQUEST_LINE_CR, lastWasCR := true }
    else { s with state := PDAState.ERROR }
  | PDAState.REQUEST_LINE_CR =>
    if c = '\n' then
      { s with state := PDAState.HEADERS, currentHeaderName := [], currentHeaderValue := [],
               consecutiveCRLFs := 0, lastWasCR := false }
    else { s with state := PDAState.ERROR }
  | PDAState.HEADERS =>
    if c = '\r' then { s with lastWasCR := true }
    else if c = '\n' ∧ s.lastWasCR then
      let s1 := { s with consecutiveCRLFs := s.consecutiveCRLFs + 1, lastWasCR := false }
      if s1.consecutiveCRLFs = (2 : Int) then
        match findHeader s1.headers "content-length".toList with
        | some v =>
          match parseCppInt v with
          | some len =>
            if len ≥ 0 then { s1 with state := PDAState.BODY, contentLengthRemaining := len }
            else { s1 with state := PDAState.ERROR }
          | none => { s1 with state := PDAState.ERROR }
        | none => { s1 with state := PDAState.BODY, contentLengthRemaining := -1 }
      else s1
    else
      let s1 := { s with consecutiveCRLFs := 0, lastWasCR := false }
      if c.isAlpha then
        { s1 with state := PDAState.HEADER_NAME, currentHeaderName := [toLowerChar c],
                  currentHeaderValue := [] }
      else { s1 with state := PDAState.ERROR }
  | PDAState.HEADER_NAME =>
    if c = ':' then
      { s with state := PDAState.HEADER_COLON,
               currentHeaderName := trimTrailingIf isSpaceCpp s.currentHeaderName,
               lastWasCR := false, consecutiveCRLFs := 0 }
    else if c.isAlphanum ∨ c = '-' then
      { s with currentHeaderName := s.currentHeaderName ++ [toLowerChar c],
               lastWasCR := false, consecutiveCRLFs := 0 }
    else { s with state := PDAState.ERROR }
  | PDAState.HEADER_COLON =>
    if c = ' ' then { s with lastWasCR := false }
    else if c = '\r' then
      { s with state := PDAState.HEADER_CR, currentHeaderValue := [], lastWasCR := true }
    else
      { s with state := PDAState.HEADER_VALUE,
               currentHeaderValue := s.currentHeaderValue ++ [c], lastWasCR := false }
  | PDAState.HEADER_VALUE =>
    if c = '\r' then { s with state := PDAState.HEADER_CR, lastWasCR := true }
    else { s with currentHeaderValue := s.currentHeaderValue ++ [c], lastWasCR := false }
  | PDAState.HEADER_CR =>
    if c = '\n' ∧ s.lastWasCR then
      let v := trimTrailingIf (fun d => d == ' ' || d == '\t') s.currentHeaderValue
      { s with state := PDAState.HEADERS, currentHeaderValue := v,
               headers := insertHeader s.headers s.currentHeaderName v,
               lastWasCR := false, consecutiveCRLFs := 0 }
    else { s with state := PDAState.ERROR }
  | PDAState.BODY =>
    { s with bodyBytesConsumed := s.bodyBytesConsumed + 1, lastWasCR := false,
             consecutiveCRLFs := 0 }
  | PDAState.ACCEPT => { s with state := PDAState.ERROR }
  | PDAState.ERROR => s

/-- The engine state right after `validate`'s reset code: `START`, stack
`$` then the pushed `R` marker on top, counters cleared. -/
def pdaInit : PDAEngineSt :=
  { state := PDAState.START, st := ['R', '$'], lastWasCR := false, consecutiveCRLFs := 0,
    headers := [], currentHeaderName := [], currentHeaderValue := [],
    contentLengthRemaining := -1, bodyBytesConsumed := 0 }

/-- End-of-input acceptance policy of `PDAEngine::validate` (after the loop):
in `BODY` accept iff the declared content length (when known) was consumed
exactly; in `HEADERS` accept iff exactly two consecutive CRLFs were just
observed; every other state rejects. -/
def pdaAccepts (s : PDAEngineSt) : Bool :=
  if s.state = PDAState.BODY then
    if s.contentLengthRemaining ≥ 0 then decide (s.bodyBytesConsumed = s.contentLengthRemaining)
    else true
  else decide (s.state = PDAState.HEADERS ∧ s.consecutiveCRLFs = 2)

/-- `PDAEngine::validate`: reset, run the character loop, apply the
end-of-input acceptance policy. -/
def pdaValidate (msg : List Char) : Bool :=
  pdaAccepts (msg.foldl pdaStep pdaInit)

/-! ## Spec-side classification for the outer validator (amended C6) -/

/-- Spec side: the request line is well-formed — at least three
whitespace-separated tokens are extractable and the third is a known HTTP
version. -/
def requestLineOk (line : List Char) : Bool :=
  match tokenize line with
  | _ :: _ :: version :: _ => version == "HTTP/1.1".toList || version == "HTTP/1.0".toList
  | _ => false

/-- Spec side (amended C6): classify the lines after the request line.  A
(CR-stripped) blank line means the terminating blank line was observed:
`Valid`.  A malformed line — a continuation line with no preceding proper
header line, or a non-continuation line lacking a colon in a non-leading
position — is a structural violation: `Invalid`.  Running out of lines before
a terminating blank line: `Incomplete`. -/
def specHeaderWalk (sawHeader : Bool) : List (List Char) → HttpResult
  | [] => HttpResult.Incomplete
  | line :: rest =>
    let l := dropTrailingCR line
    if l = [] then HttpResult.Valid
    else if is_header_continuation l then
      if sawHeader then specHeaderWalk sawHeader rest else HttpResult.Invalid
    else if ':' ∈ l ∧ l.head? ≠ some ':' then specHeaderWalk true rest
    else HttpResult.Invalid

/-- Spec side (amended C6): whole-message classification — `Invalid` on a
malformed request line or a malformed header line reached before any blank
line; `Valid` once the terminating blank line is observed; `Incomplete` when
the message ends before a terminating blank line is observed.  Note that no
clause inspects the body or the Content-Length value: the outer validator
performs no Content-Length parsing. -/
def specOuterClassify (msg : List Char) : HttpResult :=
  match splitLines msg with
  | [] => HttpResult.Incomplete
  | first :: rest =>
    if requestLineOk first then specHeaderWalk false rest else HttpResult.Invalid

theorem parse_request_line_eq (stack line : List Char) :
    parse_request_line stack line =
      if requestLineOk line then some ('R' :: stack) else none := by
  unfold parse_request_line requestLineOk
  cases tokenize line with
  | nil => rfl
  | cons a l1 =>
    cases l1 with
    | nil => rfl
    | cons b l2 =>
      cases l2 with
      | nil => rfl
      | cons v l3 =>
        by_cases h : v = "HTTP/1.1".toList ∨ v = "HTTP/1.0".toList
        · simp [h]
        · push_neg at h
          simp [h.1, h.2]

theorem validateLines_eq_specHeaderWalk :
    ∀ (lines : List (List Char)) (stack : List Char),
      validateLines stack lines = specHeaderWalk (stack.head? == some 'H') lines := by
  intro lines
  induction lines with
  | nil => intro stack; rfl
  | cons line rest ih =>
    intro stack
    simp only [validateLines, specHeaderWalk]
    by_cases hl : dropTrailingCR line = []
    · simp [hl]
    · simp only [hl, if_false]
      unfold parse_header_line
      by_cases hc : is_header_continuation (dropTrailingCR line) = true
      · simp only [hc, if_true, if_pos]
        by_cases hh : stack.head? = some 'H'
        · simp [hh, ih]
        · have : (stack.head? == some 'H') = false := by
            simp [hh]
          simp [hh, this]
      · simp only [Bool.not_eq_true] at hc
        simp only [hc, Bool.false_eq_true, if_false]
        by_cases hcolon : ':' ∈ dropTrailingCR line
        · by_cases hhead : (dropTrailingCR line).head? = some ':'
          · simp [hcolon, hhead]
          · simp [hcolon, hhead, ih]
        · simp [hcolon]

/-! ## Claim theorems: HTTP validation -/

/-- **C2 (code bug)** — evaluation of the two validators at the claim's
inputs.  The spec (and the engine's own comments) demand that
`"GET / HTTP/1.1\r\nHost: x\r\nContent-Length: 5\r\n\r\nhello"` be `Valid`
and the same message with body `"hell"` be `Invalid`.  Instead:
`PDAEngine::validate` rejects the `hello` message — after the last header
line the terminating blank line only raises `consecutiveCRLFs` to 1 (the
header line's own CRLF reset it to 0 in `HEADER_CR`), so `BODY` is never
entered and the body bytes are consumed as a `HEADER_NAME`, in which the
input then ends — and the outer `HttpPdaValidator`, which never inspects
Content-Length or the body, returns `Valid` for the `hell` message. -/
theorem c2_code_divergence_on_content_length_examples :
    pdaValidate "GET / HTTP/1.1\r\nHost: x\r\nContent-Length: 5\r\n\r\nhello".toList = false
    ∧ (("GET / HTTP/1.1\r\nHost: x\r\nContent-Length: 5\r\n\r\nhello".toList).foldl
        pdaStep pdaInit).state = PDAState.HEADER_NAME
    ∧ httpValidate "GET / HTTP/1.1\r\nHost: x\r\nContent-Length: 5\r\n\r\nhell".toList
        = HttpResult.Valid := by
  refine ⟨by decide, by decide, by decide⟩

/-- **C4 (code bug)** — `PDAEngine::validate` rejects the spec's canonical
well-formed no-body message `"GET / HTTP/1.1\r\nHost: example.com\r\n\r\n"`:
the `HEADER_CR` transition resets `consecutiveCRLFs` to 0, so the terminating
blank line brings it only to 1 and the end-of-input check
(`HEADERS ∧ consecutiveCRLFs == 2`) fails.  The engine accepts only when an
extra blank line follows (third conjunct), contradicting its own
"CRLF CRLF => end of headers" comments; the outer validator accepts the
canonical message (second conjunct). -/
theorem c4_engine_rejects_wellformed_no_body_message :
    pdaValidate "GET / HTTP/1.1\r\nHost: example.com\r\n\r\n".toList = false
    ∧ httpValidate "GET / HTTP/1.1\r\nHost: example.com\r\n\r\n".toList = HttpResult.Valid
    ∧ pdaValidate "GET / HTTP/1.1\r\n\r\n\r\n".toList = true := by
  refine ⟨by decide, by decide, by decide⟩

/-- **C6 counterexample** — the claim requires `Invalid` for a malformed
Content-Length, but the outer validator returns `Valid` for
`"GET / HTTP/1.1\r\nContent-Length: abc\r\n\r\n"` (whose Content-Length value
parses as no integer): it never parses Content-Length at all. -/
theorem c6_malformed_content_length_not_invalid :
    httpValidate "GET / HTTP/1.1\r\nContent-Length: abc\r\n\r\n".toList = HttpResult.Valid
    ∧ ¬ (httpValidate "GET / HTTP/1.1\r\nContent-Length: abc\r\n\r\n".toList
          = HttpResult.Invalid) := by
  refine ⟨by decide, by decide⟩

/-- **C6 (amended)** — the outer HTTP validator classifies every message by
structure alone: `Invalid` on a malformed request line or a malformed header
line reached before any blank line; otherwise `Valid` exactly when a
terminating blank line is observed and `Incomplete` when the message ends
before one (Content-Length is not examined, so a malformed Content-Length
value alone never yields `Invalid`); in particular a message with no trailing
blank line at all yields `Incomplete`. -/
theorem c6_outer_validator_classification :
    (∀ msg : List Char, httpValidate msg = specOuterClassify msg)
    ∧ httpValidate "GET / HTTP/1.1\r\nHost: x\r\n".toList = HttpResult.Incomplete := by
  constructor
  · intro msg
    unfold httpValidate specOuterClassify
    cases splitLines msg with
    | nil => rfl
    | cons first rest =>
      dsimp only
      rw [parse_request_line_eq]
      by_cases h : requestLineOk first = true
      · simp only [h, if_true]
        rw [validateLines_eq_specHeaderWalk]
        rfl
      · simp only [Bool.not_eq_true] at h
        simp [h]
  · decide

/-! ## AhoCorasick (`aho_corasick.cpp`) -/

/-- `AhoCorasick::TrieNode`: id, children map (`std::map<char, ...>`, kept as
an association list sorted by character), failure link (`nullptr` = `none`),
output pattern list. -/
structure TrieNode where
  id : Nat
  children : List (Char × Nat)
  failLink : Option Nat
  output : List (List Char)
deriving DecidableEq, Repr

instance : Inhabited TrieNode := ⟨⟨0, [], none, []⟩⟩

/-- The automaton: `root` pointer, arena of nodes indexed by id (the
`shared_ptr` graph flattened — ids are assigned in creation order, so the
arena index is exactly the node's id), and the id counter. -/
structure AhoCorasick where
  root : Option Nat
  nodes : List TrieNode
  nextNodeId : Nat
deriving DecidableEq, Repr

/-- The freshly constructed `AhoCorasick()` (`root` null, `nextNodeId` 0). -/
def AhoCorasick.empty : AhoCorasick := ⟨none, [], 0⟩

/-- `AhoCorasick::clear`. -/
def AhoCorasick.clear (_ : AhoCorasick) : AhoCorasick := AhoCorasick.empty

/-- Arena read (dereference a node id). -/
def getNode (ac : AhoCorasick) (i : Nat) : TrieNode := ac.nodes.getD i default

/-- Arena write (mutate the node behind an id). -/
def setNode (ac : AhoCorasick) (i : Nat) (n : TrieNode) : AhoCorasick :=
  { ac with nodes := ac.nodes.set i n }

/-- `AhoCorasick::createNode`. -/
def createNode (ac : AhoCorasick) : Nat × AhoCorasick :=
  (ac.nextNodeId,
   { ac with nodes := ac.nodes ++ [⟨ac.nextNodeId, [], none, []⟩],
             nextNodeId := ac.nextNodeId + 1 })

/-- `children.find(c)` on the `std::map`. -/
def lookupChild (children : List (Char × Nat)) (c : Char) : Option Nat :=
  (children.find? fun p => p.1 == c).map (·.2)

/-- `children[c] = newNode` insertion into the sorted `std::map` (only ever
called when `c` is absent from the map). -/
def insertChildSorted : List (Char × Nat) → Char → Nat → List (Char × Nat)
  | [], c, j => [(c, j)]
  | (c1, j1) :: rest, c, j =>
    if c < c1 then (c, j) :: (c1, j1) :: rest
    else (c1, j1) :: insertChildSorted rest c j

/-- Character loop of `AhoCorasick::insertPattern`: walk/create the child
chain for the lowered pattern, returning the terminal node id. -/
def insertLoop : AhoCorasick → Nat → List Char → AhoCorasick × Nat
  | ac, cur, [] => (ac, cur)
  | ac, cur, ch :: rest =>
    let lc := toLowerChar ch
    match lookupChild (getNode ac cur).children lc with
    | some child => insertLoop ac child rest
    | none =>
      let nid := (createNode ac).1
      let ac1 := (createNode ac).2
      let node := getNode ac1 cur
      let ac2 := setNode ac1 cur { node with children := insertChildSorted node.children lc nid }
      insertLoop ac2 nid rest

/-- `AhoCorasick::insertPattern`: after the walk, push the original pattern
text onto the terminal node's output. -/
def insertPattern (ac : AhoCorasick) (pattern : List Char) : AhoCorasick :=
  let acLast := insertLoop ac (ac.root.getD 0) pattern
  let node := getNode acLast.1 acLast.2
  setNode acLast.1 acLast.2 { node with output := node.output ++ [pattern] }

/-- `while (failNode != root && failNode->children.find(c) == end())
failNode = failNode->failLink;` — fuelled; the fail chain strictly decreases
in depth, so `nextNodeId` steps always suffice on a built automaton. -/
def findFailLoop : Nat → AhoCorasick → Nat → Nat → Char → Nat
  | 0, _, _, f, _ => f
  | fuel + 1, ac, r, f, c =>
    if f ≠ r ∧ lookupChild (getNode ac f).children c = none then
      findFailLoop fuel ac r ((getNode ac f).failLink.getD r) c
    else f

/-- Body of `buildFailLinks`' inner `for (auto& [c, child] : node->children)`:
find the child's failure link and merge the fail target's output into the
child's output. -/
def processChild (ac : AhoCorasick) (r n : Nat) (c : Char) (child : Nat) : AhoCorasick :=
  let failNode := findFailLoop ac.nextNodeId ac r ((getNode ac n).failLink.getD r) c
  let fl :=
    match lookupChild (getNode ac failNode).children c with
    | some t => t
    | none => r
  let cn := getNode ac child
  setNode ac child
    { cn with failLink := some fl, output := cn.output ++ (getNode ac fl).output }

/-- The BFS `while (!queue.empty())` loop of `buildFailLinks`, fuelled: each
node is enqueued at most once (unique parents), so `nextNodeId` dequeues
always suffice. -/
def bfsLoop : Nat → AhoCorasick → Nat → List Nat → AhoCorasick
  | 0, ac, _, _ => ac
  | _ + 1, ac, _, [] => ac
  | fuel + 1, ac, r, n :: rest =>
    let children := (getNode ac n).children
    let ac1 := children.foldl (fun acc p => processChild acc r n p.1 p.2) ac
    bfsLoop fuel ac1 r (rest ++ children.map (·.2))

/-- `AhoCorasick::buildFailLinks`: root's fail link is root; depth-1 nodes
fail to root and seed the queue; then the BFS loop. -/
def buildFailLinks (ac : AhoCorasick) : AhoCorasick :=
  match ac.root with
  | none => ac
  | some r =>
    let ac1 := setNode ac r { getNode ac r with failLink := some r }
    let rootChildren := (getNode ac1 r).children
    let ac2 := rootChildren.foldl
      (fun acc p => setNode acc p.2 { getNode acc p.2 with failLink := some r }) ac1
    bfsLoop ac2.nextNodeId ac2 r (rootChildren.map (·.2))

/-- `AhoCorasick::buildFromPatterns`: `clear()`, create the root, insert all
patterns, build the failure links.  (The prior automaton state is discarded by
`clear`, so the result is a function of the pattern list alone.) -/
def buildFromPatterns (patterns : List (List Char)) : AhoCorasick :=
  let acRoot := (createNode AhoCorasick.empty).2
  let ac2 := { acRoot with root := some (createNode AhoCorasick.empty).1 }
  buildFailLinks (patterns.foldl insertPattern ac2)

/-- `PatternMatch` of `aho_corasick.hpp`. -/
structure PatternMatch where
  pattern : List Char
  position : Nat
deriving DecidableEq, Repr

/-- `MatchStep` of `aho_corasick.hpp`. -/
structure MatchStep where
  byte : Nat
  character : Char
  nodeId : Nat
  outputs : List (List Char)
deriving DecidableEq, Repr

/-- `ScanResult` of `aho_corasick.hpp` (`matchList` models the C++ `matches`
field — `matches` is a reserved word here). -/
structure ScanResult where
  packetId : Nat
  payloadHex : List Char
  payloadAscii : List Char
  matchList : List PatternMatch
  steps : List MatchStep
deriving DecidableEq, Repr

/-- Advance `current` on (lowered) character `c`: follow failure links while
no child exists and not at root, then move to the child if one exists. -/
def scanAdvance (ac : AhoCorasick) (r cur : Nat) (c : Char) : Nat :=
  let cur1 := findFailLoop ac.nextNodeId ac r cur c
  match lookupChild (getNode ac cur1).children c with
  | some nxt => nxt
  | none => cur1

/-- The `for (pattern : current->output)` body of `AhoCorasick::scan`: record
each pattern not in `foundPatterns` as a match ending at position `i`. -/
def recordMatches (i : Nat) :
    List (List Char) → List (List Char) → List PatternMatch →
      List (List Char) × List PatternMatch
  | [], found, ms => (found, ms)
  | p :: rest, found, ms =>
    if p ∈ found then recordMatches i rest found ms
    else recordMatches i rest (p :: found) (ms ++ [⟨p, i⟩])

/-- Main loop of `AhoCorasick::scan`. -/
def scanLoop (ac : AhoCorasick) (r : Nat) :
    List Char → Nat → Nat → List (List Char) → List PatternMatch → List MatchStep →
      List PatternMatch × List MatchStep
  | [], _, _, _, ms, ss => (ms, ss)
  | ch :: rest, i, cur, found, ms, ss =>
    let c := toLowerChar ch
    let cur1 := scanAdvance ac r cur c
    let outs := (getNode ac cur1).output
    let step : MatchStep := ⟨ch.toNat, ch, (getNode ac cur1).id, outs⟩
    let fm := recordMatches i outs found ms
    scanLoop ac r rest (i + 1) cur1 fm.1 fm.2 (ss ++ [step])

/-- `AhoCorasick::scan`: with no root (never built / cleared) return the empty
result carrying the given packet fields; otherwise run the loop from root. -/
def AhoCorasick.scan (ac : AhoCorasick) (text : List Char) (packetId : Nat)
    (payloadHex payloadAscii : List Char) : ScanResult :=
  match ac.root with
  | none => ⟨packetId, payloadHex, payloadAscii, [], []⟩
  | some r =>
    let res := scanLoop ac r text 0 r [] [] []
    ⟨packetId, payloadHex, payloadAscii, res.1, res.2⟩

/-! ## Claim theorem: unbuilt automaton -/

/-- **C10** — calling `scan` before any `buildFromPatterns`, or after
`clear()`, returns for every text a `ScanResult` whose `matches` and `steps`
are both empty and whose `packetId` / `payloadHex` / `payloadAscii` equal the
passed arguments; the unbuilt automaton is not an error. -/
theorem c10_scan_unbuilt_returns_empty :
    ∀ (ac : AhoCorasick) (text : List Char) (pid : Nat) (hex asc : List Char),
      AhoCorasick.empty.scan text pid hex asc = ⟨pid, hex, asc, [], []⟩
      ∧ (ac.clear).scan text pid hex asc = ⟨pid, hex, asc, [], []⟩ := by
  intro ac text pid hex asc
  exact ⟨rfl, rfl⟩

/-! ## Counterexamples: the empty pattern breaks C1 and C3

Depth-1 trie nodes receive their failure link in `buildFailLinks`' seed loop,
which — unlike the BFS inner loop — performs no output merge.  Root's output
is non-empty exactly when the empty pattern was inserted, so with an empty
pattern configured a depth-1 node misses root's output. -/

/-- **C1 counterexample** — with patterns `["", "a"]` and text `"a"`, the
substring of the text ending at position 0 equals `""` (trivially,
case-insensitively) and 0 is its first ending position, so the claim requires
`("", 0)` to be reported; the scan reports only `("a", 0)`.  The third
conjunct shows `""` is reported (at position 0) on text `"ba"`, where the
scanner happens to sit at root after the first character — so the omission on
text `"a"` is a genuine violation of the claimed iff, not a systematic
exclusion of the empty pattern. -/
theorem c1_counterexample_empty_pattern :
    ((buildFromPatterns [[], ['a']]).scan ['a'] 1 [] []).matchList
        = [⟨['a'], 0⟩]
    ∧ (⟨[], 0⟩ : PatternMatch) ∉
        ((buildFromPatterns [[], ['a']]).scan ['a'] 1 [] []).matchList
    ∧ ((buildFromPatterns [[], ['a']]).scan ['b', 'a'] 1 [] []).matchList
        = [⟨[], 0⟩, ⟨['a'], 1⟩] := by
  refine ⟨by decide, by decide, by decide⟩

/-- **C3 counterexample** — with patterns `["", "a"]`, the node for `"a"`
(id 1, a child of root, hence a trie node other than Root) has failure link
Root (id 0), yet root's output contains `""` while node 1's output does not:
`output(n) ⊇ output(fail(n))` fails. -/
theorem c3_counterexample_empty_pattern :
    lookupChild (getNode (buildFromPatterns [[], ['a']]) 0).children 'a' = some 1
    ∧ (getNode (buildFromPatterns [[], ['a']]) 1).failLink = some 0
    ∧ [] ∈ (getNode (buildFromPatterns [[], ['a']]) 0).output
    ∧ [] ∉ (getNode (buildFromPatterns [[], ['a']]) 1).output := by
  refine ⟨by decide, by decide, by decide, by decide⟩

/-! ## Arena lemmas -/

theorem getNode_setNode_self (ac : AhoCorasick) (i : Nat) (n : TrieNode)
    (h : i < ac.nodes.length) : getNode (setNode ac i n) i = n := by
  unfold getNode setNode
  simp [List.getD, List.getElem?_set_self, h]

theorem getNode_setNode_ne (ac : AhoCorasick) (i j : Nat) (n : TrieNode)
    (h : j ≠ i) : getNode (setNode ac i n) j = getNode ac j := by
  unfold getNode setNode
  simp [List.getD, List.getElem?_set_ne (Ne.symm h)]

theorem setNode_length (ac : AhoCorasick) (i : Nat) (n : TrieNode) :
    (setNode ac i n).nodes.length = ac.nodes.length := by
  unfold setNode
  simp

theorem setNode_nextNodeId (ac : AhoCorasick) (i : Nat) (n : TrieNode) :
    (setNode ac i n).nextNodeId = ac.nextNodeId := rfl

theorem setNode_root (ac : AhoCorasick) (i : Nat) (n : TrieNode) :
    (setNode ac i n).root = ac.root := rfl

theorem getNode_createNode_old (ac : AhoCorasick) (i : Nat)
    (h : i < ac.nodes.length) : getNode (createNode ac).2 i = getNode ac i := by
  unfold getNode createNode
  simp [List.getD, List.getElem?_append_left h]

theorem getNode_createNode_new (ac : AhoCorasick) (h : ac.nodes.length = ac.nextNodeId) :
    getNode (createNode ac).2 ac.nextNodeId = ⟨ac.nextNodeId, [], none, []⟩ := by
  unfold getNode createNode
  simp [List.getD, ← h]

theorem createNode_length (ac : AhoCorasick) :
    (createNode ac).2.nodes.length = ac.nodes.length + 1 := by
  unfold createNode
  simp

theorem getNode_oob (ac : AhoCorasick) (i : Nat) (h : ac.nodes.length ≤ i) :
    getNode ac i = default := by
  unfold getNode
  simp [List.getD, List.getElem?_eq_none h]

/-! ## Trie walks (spec side) -/

/-- Walk the children maps from node `n` along word `w`. -/
def walkFrom (ac : AhoCorasick) : Nat → List Char → Option Nat
  | n, [] => some n
  | n, c :: rest =>
    match lookupChild (getNode ac n).children c with
    | some m => walkFrom ac m rest
    | none => none

/-- Walk from the root node (id 0 on every built automaton). -/
def walkT (ac : AhoCorasick) (w : List Char) : Option Nat := walkFrom ac 0 w

/-- `w` spells a path from root: it is a word of the trie. -/
def InTrie (ac : AhoCorasick) (w : List Char) : Prop := ∃ n, walkT ac w = some n

theorem walkFrom_append (ac : AhoCorasick) :
    ∀ (u v : List Char) (n : Nat),
      walkFrom ac n (u ++ v) =
        match walkFrom ac n u with
        | some m => walkFrom ac m v
        | none => none := by
  intro u
  induction u with
  | nil => intro v n; rfl
  | cons c rest ih =>
    intro v n
    simp only [List.cons_append, walkFrom]
    cases lookupChild (getNode ac n).children c with
    | none => rfl
    | some m => exact ih v m

theorem lookupChild_mem {children : List (Char × Nat)} {c : Char} {j : Nat}
    (h : lookupChild children c = some j) : (c, j) ∈ children := by
  unfold lookupChild at h
  cases hf : children.find? fun p => p.1 == c with
  | none => rw [hf] at h; simp at h
  | some q =>
    rw [hf] at h
    simp at h
    have hq := List.find?_some hf
    have hmem := List.mem_of_find?_eq_some hf
    have : q.1 = c := by simpa using hq
    have : q = (c, j) := by
      cases q
      simp_all
    rw [← this]
    exact hmem

theorem lookupChild_eq_none {children : List (Char × Nat)} {c : Char}
    (h : lookupChild children c = none) : ∀ j, (c, j) ∉ children := by
  intro j hmem
  unfold lookupChild at h
  cases hf : children.find? fun p => p.1 == c with
  | some q => rw [hf] at h; simp at h
  | none =>
    have := List.find?_eq_none.mp hf (c, j) hmem
    simp at this

theorem mem_lookupChild {children : List (Char × Nat)} {c : Char} {j : Nat}
    (hnodup : (children.map Prod.fst).Nodup)
    (hmem : (c, j) ∈ children) : lookupChild children c = some j := by
  cases hl : lookupChild children c with
  | none => exact absurd hmem (lookupChild_eq_none hl j)
  | some j1 =>
    have h1 := lookupChild_mem hl
    -- two entries with the same key in a key-nodup list coincide
    have : j1 = j := by
      by_contra hne
      have h2 : ((c, j1) : Char × Nat) ≠ (c, j) := by simp [hne]
      have := List.inj_on_of_nodup_map hnodup h1 hmem rfl
      exact h2 this
    rw [this]

/-! ## Trie well-formedness -/

/-- Well-formedness of the arena trie produced by the insertion phase: the
arena length matches the id counter, the root pointer is node 0, stored ids
match arena indices, child edges point strictly upward in id (children are
created after their parents) and stay in range, children maps have no
duplicate keys, non-root nodes have unique parent edges, and every node is
reachable from root. -/
structure TrieWF (ac : AhoCorasick) : Prop where
  len_eq : ac.nodes.length = ac.nextNodeId
  root_eq : ac.root = some 0
  pos : 0 < ac.nextNodeId
  id_eq : ∀ i, i < ac.nextNodeId → (getNode ac i).id = i
  child_gt : ∀ i, i < ac.nextNodeId →
    ∀ q ∈ (getNode ac i).children, i < q.2 ∧ q.2 < ac.nextNodeId
  keys_nodup : ∀ i, i < ac.nextNodeId → ((getNode ac i).children.map Prod.fst).Nodup
  parent_unique : ∀ j i1 i2 c1 c2, i1 < ac.nextNodeId → i2 < ac.nextNodeId →
    (c1, j) ∈ (getNode ac i1).children → (c2, j) ∈ (getNode ac i2).children →
    i1 = i2 ∧ c1 = c2
  reach : ∀ j, j < ac.nextNodeId → ∃ w, walkT ac w = some j

theorem children_oob {ac : AhoCorasick} (WF : TrieWF ac) {i : Nat}
    (h : ac.nextNodeId ≤ i) : (getNode ac i).children = [] := by
  rw [getNode_oob ac i (WF.len_eq ▸ h)]
  rfl

theorem walkFrom_in_range {ac : AhoCorasick} (WF : TrieWF ac) :
    ∀ (w : List Char) (n m : Nat), n < ac.nextNodeId →
      walkFrom ac n w = some m → m < ac.nextNodeId := by
  intro w
  induction w with
  | nil =>
    intro n m hn h
    simp only [walkFrom, Option.some.injEq] at h
    omega
  | cons c rest ih =>
    intro n m hn h
    simp only [walkFrom] at h
    cases hl : lookupChild (getNode ac n).children c with
    | none => rw [hl] at h; simp at h
    | some m1 =>
      rw [hl] at h
      have hmem := lookupChild_mem hl
      have := (WF.child_gt n hn (c, m1) hmem).2
      exact ih m1 m this h

theorem walkFrom_le {ac : AhoCorasick} (WF : TrieWF ac) :
    ∀ (w : List Char) (n m : Nat), walkFrom ac n w = some m → n ≤ m := by
  intro w
  induction w with
  | nil =>
    intro n m h
    simp only [walkFrom, Option.some.injEq] at h
    omega
  | cons c rest ih =>
    intro n m h
    simp only [walkFrom] at h
    cases hl : lookupChild (getNode ac n).children c with
    | none => rw [hl] at h; simp at h
    | some m1 =>
      rw [hl] at h
      have hmem := lookupChild_mem hl
      by_cases hn : n < ac.nextNodeId
      · have h1 := (WF.child_gt n hn (c, m1) hmem).1
        have h2 := ih m1 m h
        omega
      · rw [children_oob WF (by omega)] at hmem
        simp at hmem

theorem walkT_in_range {ac : AhoCorasick} (WF : TrieWF ac) {w : List Char} {m : Nat}
    (h : walkT ac w = some m) : m < ac.nextNodeId :=
  walkFrom_in_range WF w 0 m WF.pos h

theorem walkT_nil (ac : AhoCorasick) : walkT ac [] = some 0 := rfl

theorem walk_concat (ac : AhoCorasick) (w : List Char) (c : Char) (n : Nat) :
    walkT ac (w ++ [c]) = some n ↔
      ∃ m, walkT ac w = some m ∧ lookupChild (getNode ac m).children c = some n := by
  unfold walkT
  rw [walkFrom_append]
  cases hw : walkFrom ac 0 w with
  | none => simp
  | some m =>
    simp only [walkFrom, Option.some.injEq]
    constructor
    · intro h
      cases hl : lookupChild (getNode ac m).children c with
      | none => rw [hl] at h; simp at h
      | some n1 =>
        rw [hl] at h
        simp only [walkFrom, Option.some.injEq] at h
        exact ⟨m, rfl, h ▸ hl⟩
    · rintro ⟨m1, hm1, hl⟩
      subst hm1
      rw [hl]

theorem walkT_to_zero {ac : AhoCorasick} (WF : TrieWF ac) :
    ∀ {w : List Char}, walkT ac w = some 0 → w = [] := by
  intro w h
  cases w with
  | nil => rfl
  | cons c rest =>
    exfalso
    simp only [walkT, walkFrom] at h
    cases hl : lookupChild (getNode ac 0).children c with
    | none => rw [hl] at h; simp at h
    | some m =>
      rw [hl] at h
      have hmem := lookupChild_mem hl
      have h1 := (WF.child_gt 0 WF.pos (c, m) hmem).1
      have h2 := walkFrom_le WF rest m 0 h
      omega

theorem walkT_inj {ac : AhoCorasick} (WF : TrieWF ac) :
    ∀ (n : Nat) (w v : List Char), walkT ac w = some n → walkT ac v = some n → w = v := by
  intro n
  induction n using Nat.strong_induction_on with
  | _ n ih =>
    intro w v hw hv
    by_cases h0 : n = 0
    · subst h0
      rw [walkT_to_zero WF hw, walkT_to_zero WF hv]
    · rcases List.eq_nil_or_concat w with rfl | ⟨w1, c, rfl⟩
      · exact absurd (Option.some.inj hw).symm h0
      rcases List.eq_nil_or_concat v with rfl | ⟨v1, c1, rfl⟩
      · exact absurd (Option.some.inj hv).symm h0
      rw [List.concat_eq_append] at hw
      rw [List.concat_eq_append] at hv
      simp only [List.concat_eq_append]
      obtain ⟨m1, hm1, hl1⟩ := (walk_concat ac w1 c n).mp hw
      obtain ⟨m2, hm2, hl2⟩ := (walk_concat ac v1 c1 n).mp hv
      have hr1 : m1 < ac.nextNodeId := walkT_in_range WF hm1
      have hr2 : m2 < ac.nextNodeId := walkT_in_range WF hm2
      obtain ⟨heq, hceq⟩ := WF.parent_unique n m1 m2 c c1 hr1 hr2
        (lookupChild_mem hl1) (lookupChild_mem hl2)
      subst heq
      subst hceq
      have hlt : m1 < n := (WF.child_gt m1 hr1 (c, n) (lookupChild_mem hl1)).1
      rw [ih m1 hlt w1 v1 hm1 hm2]

/-! ## Trie extension: the insertion phase only adds edges to fresh nodes -/

/-- `ac2` extends `ac`: the id space only grows, every old edge persists, and
any edge of `ac2` out of an old node is an old edge or targets a fresh node. -/
structure TrieExtends (ac ac2 : AhoCorasick) : Prop where
  size_le : ac.nextNodeId ≤ ac2.nextNodeId
  edge_pres : ∀ i c j, lookupChild (getNode ac i).children c = some j →
    lookupChild (getNode ac2 i).children c = some j
  edge_new : ∀ i c j, i < ac.nextNodeId →
    lookupChild (getNode ac2 i).children c = some j →
    lookupChild (getNode ac i).children c = some j ∨ ac.nextNodeId ≤ j

theorem TrieExtends.refl (ac : AhoCorasick) : TrieExtends ac ac :=
  ⟨le_refl _, fun _ _ _ h => h, fun _ _ _ _ h => Or.inl h⟩

theorem TrieExtends.trans {ac1 ac2 ac3 : AhoCorasick}
    (h12 : TrieExtends ac1 ac2) (h23 : TrieExtends ac2 ac3) : TrieExtends ac1 ac3 := by
  refine ⟨le_trans h12.size_le h23.size_le, ?_, ?_⟩
  · intro i c j h
    exact h23.edge_pres i c j (h12.edge_pres i c j h)
  · intro i c j hi h
    rcases h23.edge_new i c j (lt_of_lt_of_le hi h12.size_le) h with h2 | h2
    · rcases h12.edge_new i c j hi h2 with h1 | h1
      · exact Or.inl h1
      · exact Or.inr h1
    · exact Or.inr (le_trans h12.size_le h2)

theorem walkFrom_pres {ac ac2 : AhoCorasick} (ext : TrieExtends ac ac2) :
    ∀ (w : List Char) (n m : Nat), walkFrom ac n w = some m → walkFrom ac2 n w = some m := by
  intro w
  induction w with
  | nil => intro n m h; exact h
  | cons c rest ih =>
    intro n m h
    simp only [walkFrom] at h ⊢
    cases hl : lookupChild (getNode ac n).children c with
    | none => rw [hl] at h; simp at h
    | some m1 =>
      rw [hl] at h
      rw [ext.edge_pres n c m1 hl]
      exact ih m1 m h

theorem walkT_pres {ac ac2 : AhoCorasick} (ext : TrieExtends ac ac2) {w : List Char} {m : Nat}
    (h : walkT ac w = some m) : walkT ac2 w = some m :=
  walkFrom_pres ext w 0 m h

theorem walkFrom_reflect {ac ac2 : AhoCorasick} (WF2 : TrieWF ac2) (ext : TrieExtends ac ac2) :
    ∀ (w : List Char) (n m : Nat), n < ac.nextNodeId → m < ac.nextNodeId →
      walkFrom ac2 n w = some m → walkFrom ac n w = some m := by
  intro w
  induction w with
  | nil => intro n m _ _ h; exact h
  | cons c rest ih =>
    intro n m hn hm h
    simp only [walkFrom] at h ⊢
    cases hl : lookupChild (getNode ac2 n).children c with
    | none => rw [hl] at h; simp at h
    | some m1 =>
      rw [hl] at h
      have hle : m1 ≤ m := walkFrom_le WF2 rest m1 m h
      have hm1 : m1 < ac.nextNodeId := lt_of_le_of_lt hle hm
      rcases ext.edge_new n c m1 hn hl with hold | hfresh
      · rw [hold]
        exact ih m1 m hm1 hm h
      · omega

theorem walkT_reflect {ac ac2 : AhoCorasick} (WF : TrieWF ac) (WF2 : TrieWF ac2)
    (ext : TrieExtends ac ac2) {w : List Char} {m : Nat} (hm : m < ac.nextNodeId)
    (h : walkT ac2 w = some m) : walkT ac w = some m :=
  walkFrom_reflect WF2 ext w 0 m WF.pos hm h

/-! ## `insertChildSorted` lemmas -/

theorem keys_not_mem_of_lookup_none {children : List (Char × Nat)} {c : Char}
    (h : lookupChild children c = none) : c ∉ children.map Prod.fst := by
  intro hmem
  obtain ⟨q, hq, hfst⟩ := List.mem_map.mp hmem
  cases q with
  | mk c1 j =>
    simp only at hfst
    subst hfst
    exact lookupChild_eq_none h j hq

theorem mem_insertChildSorted {l : List (Char × Nat)} {c : Char} {j : Nat} {q : Char × Nat} :
    q ∈ insertChildSorted l c j ↔ q = (c, j) ∨ q ∈ l := by
  induction l with
  | nil => simp [insertChildSorted]
  | cons p rest ih =>
    cases p with
    | mk c1 j1 =>
      simp only [insertChildSorted]
      by_cases hlt : c < c1
      · simp [hlt, List.mem_cons]
      · simp only [hlt, if_false, List.mem_cons, ih]
        tauto

theorem keys_insertChildSorted_perm (l : List (Char × Nat)) (c : Char) (j : Nat) :
    ((insertChildSorted l c j).map Prod.fst).Perm (c :: l.map Prod.fst) := by
  induction l with
  | nil => simp [insertChildSorted]
  | cons p rest ih =>
    cases p with
    | mk c1 j1 =>
      simp only [insertChildSorted]
      by_cases hlt : c < c1
      · simp [hlt]
      · simp only [hlt, if_false, List.map_cons]
        exact (ih.cons c1).trans (List.Perm.swap c c1 _)

theorem lookupChild_nil (d : Char) : lookupChild [] d = none := rfl

theorem lookupChild_cons (c1 : Char) (j1 : Nat) (rest : List (Char × Nat)) (d : Char) :
    lookupChild ((c1, j1) :: rest) d = if c1 = d then some j1 else lookupChild rest d := by
  unfold lookupChild
  simp only [List.find?]
  by_cases h : c1 = d
  · subst h
    simp
  · have hb : (c1 == d) = false := by simp [h]
    simp [h, hb]

theorem lookup_insertChildSorted_self {l : List (Char × Nat)} {c : Char} {j : Nat}
    (h : c ∉ l.map Prod.fst) : lookupChild (insertChildSorted l c j) c = some j := by
  induction l with
  | nil => simp [insertChildSorted, lookupChild_cons]
  | cons p rest ih =>
    cases p with
    | mk c1 j1 =>
      simp only [List.map_cons, List.mem_cons] at h
      push_neg at h
      simp only [insertChildSorted]
      by_cases hlt : c < c1
      · simp [hlt, lookupChild_cons]
      · simp only [hlt, if_false]
        rw [lookupChild_cons, if_neg (Ne.symm h.1)]
        exact ih h.2

theorem lookup_insertChildSorted_ne {l : List (Char × Nat)} {c d : Char} {j : Nat}
    (h : d ≠ c) : lookupChild (insertChildSorted l c j) d = lookupChild l d := by
  induction l with
  | nil =>
    rw [lookupChild_nil]
    simp [insertChildSorted, lookupChild_cons, Ne.symm h, lookupChild_nil]
  | cons p rest ih =>
    cases p with
    | mk c1 j1 =>
      simp only [insertChildSorted]
      by_cases hlt : c < c1
      · rw [if_pos hlt, lookupChild_cons, if_neg (Ne.symm h)]
      · rw [if_neg hlt, lookupChild_cons, lookupChild_cons]
        by_cases hd : c1 = d
        · simp [hd]
        · simp [hd, ih]

/-! ## Adding one fresh child (the `createNode` + `children[lowerC] = ...`
step of `insertPattern`) -/

/-- The arena after `current->children[lc] = createNode()`. -/
def addFreshChild (ac : AhoCorasick) (cur : Nat) (lc : Char) : AhoCorasick :=
  setNode (createNode ac).2 cur
    { getNode (createNode ac).2 cur with
        children := insertChildSorted (getNode (createNode ac).2 cur).children lc
          (createNode ac).1 }

theorem insertLoop_cons_some {ac : AhoCorasick} {cur : Nat} {ch : Char} {rest : List Char}
    {child : Nat} (h : lookupChild (getNode ac cur).children (toLowerChar ch) = some child) :
    insertLoop ac cur (ch :: rest) = insertLoop ac child rest := by
  simp only [insertLoop, h]

theorem insertLoop_cons_none {ac : AhoCorasick} {cur : Nat} {ch : Char} {rest : List Char}
    (h : lookupChild (getNode ac cur).children (toLowerChar ch) = none) :
    insertLoop ac cur (ch :: rest) =
      insertLoop (addFreshChild ac cur (toLowerChar ch)) ac.nextNodeId rest := by
  simp only [insertLoop, h]
  rfl

theorem addFresh_nextNodeId (ac : AhoCorasick) (cur : Nat) (lc : Char) :
    (addFreshChild ac cur lc).nextNodeId = ac.nextNodeId + 1 := rfl

theorem addFresh_root (ac : AhoCorasick) (cur : Nat) (lc : Char) :
    (addFreshChild ac cur lc).root = ac.root := rfl

theorem addFresh_length (ac : AhoCorasick) (cur : Nat) (lc : Char) :
    (addFreshChild ac cur lc).nodes.length = ac.nodes.length + 1 := by
  unfold addFreshChild
  rw [setNode_length, createNode_length]

theorem getNode_addFresh_cur {ac : AhoCorasick} (WF : TrieWF ac) {cur : Nat} (lc : Char)
    (hcur : cur < ac.nextNodeId) :
    getNode (addFreshChild ac cur lc) cur =
      { getNode ac cur with
          children := insertChildSorted (getNode ac cur).children lc ac.nextNodeId } := by
  unfold addFreshChild
  have hlen : cur < ac.nodes.length := WF.len_eq ▸ hcur
  have hold : getNode (createNode ac).2 cur = getNode ac cur :=
    getNode_createNode_old ac cur hlen
  rw [getNode_setNode_self _ _ _ (by rw [createNode_length]; omega), hold]
  rfl

theorem getNode_addFresh_new {ac : AhoCorasick} (WF : TrieWF ac) {cur : Nat} (lc : Char)
    (hcur : cur < ac.nextNodeId) :
    getNode (addFreshChild ac cur lc) ac.nextNodeId = ⟨ac.nextNodeId, [], none, []⟩ := by
  unfold addFreshChild
  rw [getNode_setNode_ne _ _ _ _ (by omega), getNode_createNode_new ac WF.len_eq]

theorem getNode_addFresh_other {ac : AhoCorasick} (WF : TrieWF ac) {cur : Nat} (lc : Char)
    {i : Nat} (hne : i ≠ cur) (hnew : i ≠ ac.nextNodeId) :
    getNode (addFreshChild ac cur lc) i = getNode ac i := by
  unfold addFreshChild
  rw [getNode_setNode_ne _ _ _ _ hne]
  by_cases hi : i < ac.nodes.length
  · exact getNode_createNode_old ac i hi
  · have h1 : ac.nodes.length ≤ i := by omega
    have h2 : (createNode ac).2.nodes.length ≤ i := by
      rw [createNode_length]
      rw [WF.len_eq] at h1 ⊢
      omega
    rw [getNode_oob _ _ h2, getNode_oob _ _ h1]

theorem addFresh_fields {ac : AhoCorasick} (WF : TrieWF ac) {cur : Nat} (lc : Char)
    (hcur : cur < ac.nextNodeId) (i : Nat) :
    (getNode (addFreshChild ac cur lc) i).output = (getNode ac i).output
    ∧ (getNode (addFreshChild ac cur lc) i).failLink = (getNode ac i).failLink := by
  by_cases hi : i = cur
  · subst hi
    rw [getNode_addFresh_cur WF lc hcur]
    exact ⟨rfl, rfl⟩
  · by_cases hn : i = ac.nextNodeId
    · subst hn
      rw [getNode_addFresh_new WF lc hcur, getNode_oob ac _ (le_of_eq WF.len_eq)]
      exact ⟨rfl, rfl⟩
    · rw [getNode_addFresh_other WF lc hi hn]
      exact ⟨rfl, rfl⟩

theorem addFresh_lookup_cur {ac : AhoCorasick} (WF : TrieWF ac) {cur : Nat} {lc : Char}
    (hcur : cur < ac.nextNodeId)
    (hl : lookupChild (getNode ac cur).children lc = none) (d : Char) :
    lookupChild (getNode (addFreshChild ac cur lc) cur).children d =
      if d = lc then some ac.nextNodeId else lookupChild (getNode ac cur).children d := by
  rw [getNode_addFresh_cur WF lc hcur]
  by_cases hd : d = lc
  · subst hd
    rw [if_pos rfl]
    exact lookup_insertChildSorted_self (keys_not_mem_of_lookup_none hl)
  · rw [if_neg hd]
    exact lookup_insertChildSorted_ne hd

theorem addFresh_extends {ac : AhoCorasick} (WF : TrieWF ac) {cur : Nat} {lc : Char}
    (hcur : cur < ac.nextNodeId)
    (hl : lookupChild (getNode ac cur).children lc = none) :
    TrieExtends ac (addFreshChild ac cur lc) := by
  refine ⟨by rw [addFresh_nextNodeId]; omega, ?_, ?_⟩
  · intro i c j h
    by_cases hi : i = cur
    · subst hi
      rw [addFresh_lookup_cur WF hcur hl]
      have hne : c ≠ lc := by
        intro heq
        rw [heq, hl] at h
        exact Option.noConfusion h
      rw [if_neg hne]
      exact h
    · by_cases hn : i = ac.nextNodeId
      · subst hn
        rw [children_oob WF (le_refl _)] at h
        rw [lookupChild_nil] at h
        exact Option.noConfusion h
      · rw [getNode_addFresh_other WF lc hi hn]
        exact h
  · intro i c j hi h
    by_cases hic : i = cur
    · subst hic
      rw [addFresh_lookup_cur WF hcur hl] at h
      by_cases hd : c = lc
      · rw [if_pos hd] at h
        have hj := Option.some.inj h
        right
        omega
      · rw [if_neg hd] at h
        exact Or.inl h
    · rw [getNode_addFresh_other WF lc hic (by omega)] at h
      exact Or.inl h

theorem addFresh_WF {ac : AhoCorasick} (WF : TrieWF ac) {cur : Nat} {lc : Char}
    (hcur : cur < ac.nextNodeId)
    (hl : lookupChild (getNode ac cur).children lc = none) :
    TrieWF (addFreshChild ac cur lc) := by
  have hext := addFresh_extends WF hcur hl
  refine ⟨?_, ?_, ?_, ?_, ?_, ?_, ?_, ?_⟩
  · rw [addFresh_length, addFresh_nextNodeId, WF.len_eq]
  · rw [addFresh_root]
    exact WF.root_eq
  · rw [addFresh_nextNodeId]
    omega
  · -- id_eq
    intro i hi
    rw [addFresh_nextNodeId] at hi
    by_cases hic : i = cur
    · subst hic
      rw [getNode_addFresh_cur WF lc hcur]
      exact WF.id_eq _ hcur
    · by_cases hn : i = ac.nextNodeId
      · subst hn
        rw [getNode_addFresh_new WF lc hcur]
      · rw [getNode_addFresh_other WF lc hic hn]
        exact WF.id_eq i (by omega)
  · -- child_gt
    intro i hi q hq
    rw [addFresh_nextNodeId] at hi
    rw [addFresh_nextNodeId]
    by_cases hic : i = cur
    · subst hic
      rw [getNode_addFresh_cur WF lc hcur] at hq
      simp only at hq
      rcases mem_insertChildSorted.mp hq with rfl | hmem
      · exact ⟨hcur, by omega⟩
      · have := WF.child_gt _ hcur q hmem
        omega
    · by_cases hn : i = ac.nextNodeId
      · subst hn
        rw [getNode_addFresh_new WF lc hcur] at hq
        simp at hq
      · rw [getNode_addFresh_other WF lc hic hn] at hq
        have := WF.child_gt i (by omega) q hq
        omega
  · -- keys_nodup
    intro i hi
    by_cases hic : i = cur
    · subst hic
      rw [getNode_addFresh_cur WF lc hcur]
      simp only
      refine (keys_insertChildSorted_perm _ lc ac.nextNodeId).symm.nodup ?_
      exact List.Nodup.cons (keys_not_mem_of_lookup_none hl) (WF.keys_nodup _ hcur)
    · by_cases hn : i = ac.nextNodeId
      · subst hn
        rw [getNode_addFresh_new WF lc hcur]
        simp
      · rw [getNode_addFresh_other WF lc hic hn]
        rw [addFresh_nextNodeId] at hi
        by_cases hlt : i < ac.nextNodeId
        · exact WF.keys_nodup i hlt
        · rw [children_oob WF (by omega)]
          simp
  · -- parent_unique
    intro j i1 i2 c1 c2 hi1 hi2 hm1 hm2
    rw [addFresh_nextNodeId] at hi1 hi2
    -- characterize membership in the new arena
    have key : ∀ i c, i < ac.nextNodeId + 1 → (c, j) ∈ (getNode (addFreshChild ac cur lc) i).children →
        ((c, j) ∈ (getNode ac i).children ∧ i < ac.nextNodeId) ∨ (i = cur ∧ c = lc ∧ j = ac.nextNodeId) := by
      intro i c hi hm
      by_cases hic : i = cur
      · subst hic
        rw [getNode_addFresh_cur WF lc hcur] at hm
        simp only at hm
        rcases mem_insertChildSorted.mp hm with heq | hmem
        · right
          exact ⟨rfl, (Prod.mk.injEq _ _ _ _).mp heq |>.1, (Prod.mk.injEq _ _ _ _).mp heq |>.2⟩
        · left
          exact ⟨hmem, hcur⟩
      · by_cases hn : i = ac.nextNodeId
        · subst hn
          rw [getNode_addFresh_new WF lc hcur] at hm
          simp at hm
        · rw [getNode_addFresh_other WF lc hic hn] at hm
          left
          exact ⟨hm, by omega⟩
    rcases key i1 c1 hi1 hm1 with ⟨ho1, hr1⟩ | ⟨he1, hc1, hj1⟩ <;>
      rcases key i2 c2 hi2 hm2 with ⟨ho2, hr2⟩ | ⟨he2, hc2, hj2⟩
    · exact WF.parent_unique j i1 i2 c1 c2 hr1 hr2 ho1 ho2
    · subst hj2
      have := (WF.child_gt i1 hr1 (c1, ac.nextNodeId) ho1).2
      omega
    · subst hj1
      have := (WF.child_gt i2 hr2 (c2, ac.nextNodeId) ho2).2
      omega
    · subst he1
      subst he2
      subst hc1
      subst hc2
      exact ⟨rfl, rfl⟩
  · -- reach
    intro j hj
    rw [addFresh_nextNodeId] at hj
    by_cases hn : j = ac.nextNodeId
    · subst hn
      obtain ⟨w, hw⟩ := WF.reach cur hcur
      refine ⟨w ++ [lc], ?_⟩
      rw [walk_concat]
      refine ⟨cur, walkT_pres hext hw, ?_⟩
      rw [addFresh_lookup_cur WF hcur hl, if_pos rfl]
    · obtain ⟨w, hw⟩ := WF.reach j (by omega)
      exact ⟨w, walkT_pres hext hw⟩

/-! ## `insertLoop` and `insertPattern` specifications -/

theorem insertLoop_spec :
    ∀ (w : List Char) (ac : AhoCorasick) (cur : Nat), TrieWF ac → cur < ac.nextNodeId →
      TrieWF (insertLoop ac cur w).1
      ∧ TrieExtends ac (insertLoop ac cur w).1
      ∧ (insertLoop ac cur w).2 < (insertLoop ac cur w).1.nextNodeId
      ∧ walkFrom (insertLoop ac cur w).1 cur (lowerStr w) = some (insertLoop ac cur w).2
      ∧ (∀ i, (getNode (insertLoop ac cur w).1 i).output = (getNode ac i).output)
      ∧ (∀ i, (getNode (insertLoop ac cur w).1 i).failLink = (getNode ac i).failLink)
      ∧ (insertLoop ac cur w).1.root = ac.root := by
  intro w
  induction w with
  | nil =>
    intro ac cur WF hcur
    exact ⟨WF, TrieExtends.refl ac, hcur, rfl, fun i => rfl, fun i => rfl, rfl⟩
  | cons ch rest ih =>
    intro ac cur WF hcur
    cases hl : lookupChild (getNode ac cur).children (toLowerChar ch) with
    | some child =>
      rw [insertLoop_cons_some hl]
      have hchild : child < ac.nextNodeId :=
        (WF.child_gt cur hcur _ (lookupChild_mem hl)).2
      obtain ⟨WF1, ext1, hlt1, hwalk1, hout1, hfail1, hroot1⟩ := ih ac child WF hchild
      refine ⟨WF1, ext1, hlt1, ?_, hout1, hfail1, hroot1⟩
      simp only [lowerStr, List.map_cons, walkFrom]
      rw [ext1.edge_pres cur (toLowerChar ch) child hl]
      exact hwalk1
    | none =>
      rw [insertLoop_cons_none hl]
      have WF2 := addFresh_WF WF hcur hl
      have ext2 := addFresh_extends WF hcur hl
      have hnid : ac.nextNodeId < (addFreshChild ac cur (toLowerChar ch)).nextNodeId := by
        rw [addFresh_nextNodeId]
        omega
      obtain ⟨WF1, ext1, hlt1, hwalk1, hout1, hfail1, hroot1⟩ := ih _ ac.nextNodeId WF2 hnid
      refine ⟨WF1, ext2.trans ext1, hlt1, ?_, ?_, ?_, by rw [hroot1, addFresh_root]⟩
      · simp only [lowerStr, List.map_cons, walkFrom]
        have hedge : lookupChild
            (getNode (addFreshChild ac cur (toLowerChar ch)) cur).children (toLowerChar ch)
              = some ac.nextNodeId := by
          rw [addFresh_lookup_cur WF hcur hl, if_pos rfl]
        rw [ext1.edge_pres cur (toLowerChar ch) ac.nextNodeId hedge]
        exact hwalk1
      · intro i
        rw [hout1 i, (addFresh_fields WF (toLowerChar ch) hcur i).1]
      · intro i
        rw [hfail1 i, (addFresh_fields WF (toLowerChar ch) hcur i).2]

theorem insertPattern_spec {ac : AhoCorasick} (WF : TrieWF ac) (p : List Char) :
    TrieWF (insertPattern ac p)
    ∧ TrieExtends ac (insertPattern ac p)
    ∧ (insertPattern ac p).root = ac.root
    ∧ walkT (insertPattern ac p) (lowerStr p) = some (insertLoop ac 0 p).2
    ∧ (∀ i, (getNode (insertPattern ac p) i).failLink = (getNode ac i).failLink)
    ∧ ((getNode (insertPattern ac p) (insertLoop ac 0 p).2).output
        = (getNode ac (insertLoop ac 0 p).2).output ++ [p])
    ∧ (∀ i, i ≠ (insertLoop ac 0 p).2 →
        (getNode (insertPattern ac p) i).output = (getNode ac i).output) := by
  have hroot0 : ac.root.getD 0 = 0 := by rw [WF.root_eq]; rfl
  obtain ⟨WF1, ext1, hlt1, hwalk1, hout1, hfail1, hroot1⟩ :=
    insertLoop_spec p ac 0 WF WF.pos
  -- unfold insertPattern
  have hdef : insertPattern ac p =
      setNode (insertLoop ac 0 p).1 (insertLoop ac 0 p).2
        { getNode (insertLoop ac 0 p).1 (insertLoop ac 0 p).2 with
            output := (getNode (insertLoop ac 0 p).1 (insertLoop ac 0 p).2).output ++ [p] } := by
    unfold insertPattern
    rw [hroot0]
  set res := insertLoop ac 0 p with hres
  set last := res.2 with hlast
  have hlen : last < res.1.nodes.length := WF1.len_eq ▸ hlt1
  have hget_last : getNode (insertPattern ac p) last =
      { getNode res.1 last with output := (getNode res.1 last).output ++ [p] } := by
    rw [hdef]
    exact getNode_setNode_self _ _ _ hlen
  have hget_other : ∀ i, i ≠ last → getNode (insertPattern ac p) i = getNode res.1 i := by
    intro i hi
    rw [hdef]
    exact getNode_setNode_ne _ _ _ _ hi
  have hWF : TrieWF (insertPattern ac p) := by
    refine ⟨?_, ?_, ?_, ?_, ?_, ?_, ?_, ?_⟩
    · rw [hdef, setNode_length, setNode_nextNodeId]
      exact WF1.len_eq
    · rw [hdef, setNode_root, hroot1]
      exact WF.root_eq
    · rw [hdef, setNode_nextNodeId]
      exact WF1.pos
    · intro i hi
      rw [hdef, setNode_nextNodeId] at hi
      by_cases h : i = last
      · subst h
        rw [hget_last]
        exact WF1.id_eq _ hi
      · rw [hget_other i h]
        exact WF1.id_eq i hi
    · intro i hi q hq
      rw [hdef, setNode_nextNodeId] at hi
      rw [hdef, setNode_nextNodeId]
      by_cases h : i = last
      · subst h
        rw [hget_last] at hq
        exact WF1.child_gt _ hi q hq
      · rw [hget_other i h] at hq
        exact WF1.child_gt i hi q hq
    · intro i hi
      rw [hdef, setNode_nextNodeId] at hi
      by_cases h : i = last
      · subst h
        rw [hget_last]
        exact WF1.keys_nodup _ hi
      · rw [hget_other i h]
        exact WF1.keys_nodup i hi
    · intro j i1 i2 c1 c2 hi1 hi2 hm1 hm2
      rw [hdef, setNode_nextNodeId] at hi1 hi2
      have e1 : (c1, j) ∈ (getNode res.1 i1).children := by
        by_cases h : i1 = last
        · subst h
          rw [hget_last] at hm1
          exact hm1
        · rw [hget_other i1 h] at hm1
          exact hm1
      have e2 : (c2, j) ∈ (getNode res.1 i2).children := by
        by_cases h : i2 = last
        · subst h
          rw [hget_last] at hm2
          exact hm2
        · rw [hget_other i2 h] at hm2
          exact hm2
      exact WF1.parent_unique j i1 i2 c1 c2 hi1 hi2 e1 e2
    · intro j hj
      rw [hdef, setNode_nextNodeId] at hj
      obtain ⟨w, hw⟩ := WF1.reach j hj
      refine ⟨w, ?_⟩
      have hchild : ∀ i, (getNode (insertPattern ac p) i).children
          = (getNode res.1 i).children := by
        intro i
        by_cases h : i = last
        · subst h
          rw [hget_last]
        · rw [hget_other i h]
      -- walks only depend on children
      have : ∀ (u : List Char) (n : Nat), walkFrom res.1 n u = walkFrom (insertPattern ac p) n u := by
        intro u
        induction u with
        | nil => intro n; rfl
        | cons c cs ihc =>
          intro n
          simp only [walkFrom, hchild]
          cases lookupChild (getNode res.1 n).children c with
          | none => rfl
          | some m => exact ihc m
      unfold walkT at hw ⊢
      rw [← this]
      exact hw
  have hext : TrieExtends ac (insertPattern ac p) := by
    refine TrieExtends.trans ext1 ⟨?_, ?_, ?_⟩
    · rw [hdef, setNode_nextNodeId]
    · intro i c j h
      by_cases hi : i = last
      · subst hi
        rw [hget_last]
        exact h
      · rw [hget_other i hi]
        exact h
    · intro i c j _ h
      by_cases hi : i = last
      · subst hi
        rw [hget_last] at h
        exact Or.inl h
      · rw [hget_other i hi] at h
        exact Or.inl h
  refine ⟨hWF, hext, by rw [hdef, setNode_root, hroot1], ?_, ?_, ?_, ?_⟩
  · -- walk of the lowered pattern
    have hchild : ∀ i, (getNode (insertPattern ac p) i).children
        = (getNode res.1 i).children := by
      intro i
      by_cases h : i = last
      · subst h
        rw [hget_last]
      · rw [hget_other i h]
    have hw : ∀ (u : List Char) (n : Nat),
        walkFrom res.1 n u = walkFrom (insertPattern ac p) n u := by
      intro u
      induction u with
      | nil => intro n; rfl
      | cons c cs ihc =>
        intro n
        simp only [walkFrom, hchild]
        cases lookupChild (getNode res.1 n).children c with
        | none => rfl
        | some m => exact ihc m
    unfold walkT
    rw [← hw]
    exact hwalk1
  · intro i
    by_cases h : i = last
    · subst h
      rw [hget_last]
      exact hfail1 _
    · rw [hget_other i h]
      exact hfail1 i
  · rw [hget_last]
    simp only
    rw [hout1 last]
  · intro i hi
    rw [hget_other i hi]
    exact hout1 i

/-! ## The insertion phase: fold over the pattern list -/

/-- The automaton right after `clear(); root = createNode();` at the top of
`buildFromPatterns`: a single root node with id 0. -/
def acRoot : AhoCorasick := { (createNode AhoCorasick.empty).2 with root := some 0 }

theorem buildFromPatterns_def (patterns : List (List Char)) :
    buildFromPatterns patterns = buildFailLinks (patterns.foldl insertPattern acRoot) := rfl

theorem getNode_acRoot_zero : getNode acRoot 0 = ⟨0, [], none, []⟩ := rfl

theorem getNode_acRoot_pos (n : Nat) (h : 1 ≤ n) : getNode acRoot n = default := by
  apply getNode_oob
  simpa [acRoot, createNode, AhoCorasick.empty] using h

theorem acRoot_WF : TrieWF acRoot := by
  refine ⟨rfl, rfl, Nat.one_pos, ?_, ?_, ?_, ?_, ?_⟩
  · intro i hi
    have : i = 0 := by
      change i < 1 at hi
      omega
    subst this
    rfl
  · intro i hi q hq
    have : i = 0 := by
      change i < 1 at hi
      omega
    subst this
    rw [getNode_acRoot_zero] at hq
    simp at hq
  · intro i hi
    have : i = 0 := by
      change i < 1 at hi
      omega
    subst this
    rw [getNode_acRoot_zero]
    simp
  · intro j i1 i2 c1 c2 hi1 hi2 hm1 hm2
    have h1 : i1 = 0 := by
      change i1 < 1 at hi1
      omega
    subst h1
    rw [getNode_acRoot_zero] at hm1
    simp at hm1
  · intro j hj
    have : j = 0 := by
      change j < 1 at hj
      omega
    subst this
    exact ⟨[], rfl⟩

/-- During the insertion phase, the outputs are exactly the already-inserted
patterns whose lowered text ends at the node. -/
def InsOut (ps : List (List Char)) (ac : AhoCorasick) : Prop :=
  ∀ n p, p ∈ (getNode ac n).output ↔ p ∈ ps ∧ walkT ac (lowerStr p) = some n

/-- Every already-inserted pattern's lowered text is a trie word. -/
def PatWords (ps : List (List Char)) (ac : AhoCorasick) : Prop :=
  ∀ p, p ∈ ps → ∃ m, walkT ac (lowerStr p) = some m

theorem acRoot_InsOut : InsOut [] acRoot := by
  intro n p
  constructor
  · intro hp
    exfalso
    rcases Nat.eq_zero_or_pos n with rfl | hpos
    · rw [getNode_acRoot_zero] at hp
      simp at hp
    · rw [getNode_acRoot_pos n hpos] at hp
      simp [default] at hp
  · rintro ⟨h, _⟩
    simp at h

theorem acRoot_PatWords : PatWords [] acRoot := by
  intro p hp
  simp at hp

theorem insertPattern_InsOut {ac : AhoCorasick} (WF : TrieWF ac) {ps : List (List Char)}
    (hio : InsOut ps ac) (hpw : PatWords ps ac) (p : List Char) :
    InsOut (ps ++ [p]) (insertPattern ac p) ∧ PatWords (ps ++ [p]) (insertPattern ac p) := by
  obtain ⟨WF1, ext1, hroot1, hwalkp, hfail1, houtlast, houtother⟩ := insertPattern_spec WF p
  constructor
  · intro n q
    constructor
    · intro hq
      by_cases hn : n = (insertLoop ac 0 p).2
      · subst hn
        rw [houtlast] at hq
        rcases List.mem_append.mp hq with hq | hq
        · obtain ⟨hqs, hqw⟩ := (hio _ q).mp hq
          exact ⟨List.mem_append_left _ hqs, walkT_pres ext1 hqw⟩
        · rw [List.mem_singleton] at hq
          subst hq
          exact ⟨List.mem_append_right _ (List.mem_singleton_self _), hwalkp⟩
      · rw [houtother n hn] at hq
        obtain ⟨hqs, hqw⟩ := (hio n q).mp hq
        exact ⟨List.mem_append_left _ hqs, walkT_pres ext1 hqw⟩
    · rintro ⟨hqs, hqw⟩
      rcases List.mem_append.mp hqs with hqs | hqs
      · obtain ⟨m, hm⟩ := hpw q hqs
        have hm1 : walkT (insertPattern ac p) (lowerStr q) = some m := walkT_pres ext1 hm
        have hmn : m = n := Option.some.inj (hm1.symm.trans hqw)
        subst hmn
        have hold : q ∈ (getNode ac m).output := (hio m q).mpr ⟨hqs, hm⟩
        by_cases hn : m = (insertLoop ac 0 p).2
        · subst hn
          rw [houtlast]
          exact List.mem_append_left _ hold
        · rw [houtother m hn]
          exact hold
      · rw [List.mem_singleton] at hqs
        subst hqs
        have hn : (insertLoop ac 0 q).2 = n := Option.some.inj (hwalkp.symm.trans hqw)
        subst hn
        rw [houtlast]
        exact List.mem_append_right _ (List.mem_singleton_self _)
  · intro q hq
    rcases List.mem_append.mp hq with hq | hq
    · obtain ⟨m, hm⟩ := hpw q hq
      exact ⟨m, walkT_pres ext1 hm⟩
    · rw [List.mem_singleton] at hq
      subst hq
      exact ⟨_, hwalkp⟩

theorem foldl_insert_spec :
    ∀ (rest ps : List (List Char)) (ac : AhoCorasick),
      TrieWF ac → InsOut ps ac → PatWords ps ac →
      TrieWF (rest.foldl insertPattern ac)
      ∧ InsOut (ps ++ rest) (rest.foldl insertPattern ac)
      ∧ PatWords (ps ++ rest) (rest.foldl insertPattern ac) := by
  intro rest
  induction rest with
  | nil =>
    intro ps ac h1 h2 h3
    simpa using ⟨h1, h2, h3⟩
  | cons p rest ih =>
    intro ps ac WF hio hpw
    simp only [List.foldl_cons]
    have step := insertPattern_InsOut WF hio hpw p
    have hnext := ih (ps ++ [p]) (insertPattern ac p) (insertPattern_spec WF p).1 step.1 step.2
    simpa [List.append_assoc] using hnext

/-- The complete insertion phase starting from the fresh root. -/
theorem insertPhase_spec (patterns : List (List Char)) :
    TrieWF (patterns.foldl insertPattern acRoot)
    ∧ InsOut patterns (patterns.foldl insertPattern acRoot)
    ∧ PatWords patterns (patterns.foldl insertPattern acRoot) := by
  have := foldl_insert_spec patterns [] acRoot acRoot_WF acRoot_InsOut acRoot_PatWords
  simpa using this

/-! ## Suffix combinatorics -/

theorem suffix_total {w s t : List Char} (hs : s <:+ w) (ht : t <:+ w)
    (hle : s.length ≤ t.length) : s <:+ t :=
  List.suffix_of_suffix_length_le hs ht hle

theorem suffix_snoc_decomp {v w : List Char} {c : Char} (h : v <:+ w ++ [c]) :
    v = [] ∨ ∃ t, v = t ++ [c] ∧ t <:+ w := by
  rcases List.eq_nil_or_concat v with rfl | ⟨t, c1, rfl⟩
  · exact Or.inl rfl
  · right
    rw [List.concat_eq_append] at h ⊢
    obtain ⟨a, ha⟩ := h
    have h2 : (a ++ t) ++ [c1] = w ++ [c] := by
      rw [← ha]
      simp [List.append_assoc]
    have h3 := List.append_inj' h2 (by simp)
    have hc : c1 = c := by simpa using h3.2
    subst hc
    exact ⟨t, rfl, ⟨a, h3.1⟩⟩

theorem suffix_append_singleton {s w : List Char} (h : s <:+ w) (c : Char) :
    s ++ [c] <:+ w ++ [c] := by
  obtain ⟨a, ha⟩ := h
  exact ⟨a, by rw [← List.append_assoc, ha]⟩

theorem suffix_cons_iff_own {t w : List Char} {c : Char} :
    t <:+ c :: w ↔ t = c :: w ∨ t <:+ w := by
  constructor
  · rintro ⟨a, ha⟩
    cases a with
    | nil =>
      left
      simpa using ha
    | cons x xs =>
      right
      simp only [List.cons_append, List.cons.injEq] at ha
      exact ⟨xs, ha.2⟩
  · rintro (rfl | ⟨a, ha⟩)
    · exact ⟨[], rfl⟩
    · exact ⟨c :: a, by rw [List.cons_append, ha]⟩

/-! ## Longest trie suffixes -/

theorem inTrie_nil (ac : AhoCorasick) : InTrie ac [] := ⟨0, rfl⟩

theorem inTrie_of_append {ac : AhoCorasick} {u v : List Char} (h : InTrie ac (u ++ v)) :
    InTrie ac u := by
  obtain ⟨n, hn⟩ := h
  unfold InTrie
  unfold walkT at hn ⊢
  rw [walkFrom_append] at hn
  cases hu : walkFrom ac 0 u with
  | none =>
    rw [hu] at hn
    exact absurd hn (by simp)
  | some m => exact ⟨m, rfl⟩

/-- `s` is the longest suffix of `w` (possibly `w` itself) that is a trie
word. -/
def MaxTrieSuffix (ac : AhoCorasick) (w s : List Char) : Prop :=
  s <:+ w ∧ InTrie ac s ∧ ∀ t, t <:+ w → InTrie ac t → t.length ≤ s.length

/-- `s` is the longest proper suffix of `w` that is a trie word. -/
def MaxProperTrieSuffix (ac : AhoCorasick) (w s : List Char) : Prop :=
  s <:+ w ∧ s ≠ w ∧ InTrie ac s ∧
    ∀ t, t <:+ w → t ≠ w → InTrie ac t → t.length ≤ s.length

theorem maxTrieSuffix_exists (ac : AhoCorasick) (w : List Char) :
    ∃ s, MaxTrieSuffix ac w s := by
  induction w with
  | nil =>
    refine ⟨[], List.nil_suffix, inTrie_nil ac, ?_⟩
    intro t ht _
    exact List.IsSuffix.length_le ht
  | cons c w ih =>
    by_cases hw : InTrie ac (c :: w)
    · refine ⟨c :: w, List.suffix_refl _, hw, ?_⟩
      intro t ht _
      exact List.IsSuffix.length_le ht
    · obtain ⟨s, hs1, hs2, hs3⟩ := ih
      refine ⟨s, hs1.trans (List.suffix_cons c w), hs2, ?_⟩
      intro t ht hti
      rcases suffix_cons_iff_own.mp ht with rfl | ht'
      · exact absurd hti hw
      · exact hs3 t ht' hti

theorem maxTrieSuffix_unique {ac : AhoCorasick} {w s s1 : List Char}
    (h : MaxTrieSuffix ac w s) (h1 : MaxTrieSuffix ac w s1) : s = s1 := by
  have hle : s.length ≤ s1.length := h1.2.2 s h.1 h.2.1
  have hge : s1.length ≤ s.length := h.2.2 s1 h1.1 h1.2.1
  exact List.IsSuffix.eq_of_length (suffix_total h.1 h1.1 hle) (by omega)

theorem maxProperTrieSuffix_unique {ac : AhoCorasick} {w s s1 : List Char}
    (h : MaxProperTrieSuffix ac w s) (h1 : MaxProperTrieSuffix ac w s1) : s = s1 := by
  have hle : s.length ≤ s1.length := h1.2.2.2 s h.1 h.2.1 h.2.2.1
  have hge : s1.length ≤ s.length := h.2.2.2 s1 h1.1 h1.2.1 h1.2.2.1
  exact List.IsSuffix.eq_of_length (suffix_total h.1 h1.1 hle) (by omega)

theorem maxProperTrieSuffix_exists (ac : AhoCorasick) {w : List Char} (hw : w ≠ []) :
    ∃ s, MaxProperTrieSuffix ac w s := by
  cases w with
  | nil => exact absurd rfl hw
  | cons c w1 =>
    obtain ⟨s, hs1, hs2, hs3⟩ := maxTrieSuffix_exists ac w1
    have hlt : s.length < (c :: w1).length := by
      have := List.IsSuffix.length_le hs1
      simp only [List.length_cons]
      omega
    refine ⟨s, hs1.trans (List.suffix_cons c w1), ?_, hs2, ?_⟩
    · intro heq
      rw [heq] at hlt
      omega
    · intro t ht htne hti
      rcases suffix_cons_iff_own.mp ht with rfl | ht'
      · exact absurd rfl htne
      · exact hs3 t ht' hti

/-- a trie suffix is a suffix of the longest trie suffix -/
theorem suffix_of_maxTrieSuffix {ac : AhoCorasick} {w s t : List Char}
    (h : MaxTrieSuffix ac w s) (ht : t <:+ w) (hti : InTrie ac t) : t <:+ s :=
  suffix_total ht h.1 (h.2.2 t ht hti)

theorem suffix_of_maxProperTrieSuffix {ac : AhoCorasick} {w s t : List Char}
    (h : MaxProperTrieSuffix ac w s) (ht : t <:+ w) (htne : t ≠ w) (hti : InTrie ac t) :
    t <:+ s :=
  suffix_total ht h.1 (h.2.2.2 t ht htne hti)

/-- Proper trie-suffixes of `w ++ [c]` are exactly the trie-suffixes of
`s1 ++ [c]`, where `s1` is the longest proper trie-suffix of `w`. -/
theorem proper_snoc_seteq {ac : AhoCorasick} {w s1 : List Char} {c : Char}
    (h : MaxProperTrieSuffix ac w s1) :
    ∀ x, (x <:+ w ++ [c] ∧ x ≠ w ++ [c] ∧ InTrie ac x) ↔
      (x <:+ s1 ++ [c] ∧ InTrie ac x) := by
  intro x
  constructor
  · rintro ⟨hx, hxne, hxt⟩
    refine ⟨?_, hxt⟩
    rcases suffix_snoc_decomp hx with rfl | ⟨t, rfl, ht⟩
    · exact List.nil_suffix
    · have htne : t ≠ w := by
        intro heq
        subst heq
        exact hxne rfl
      have hti : InTrie ac t := inTrie_of_append hxt
      exact suffix_append_singleton (suffix_of_maxProperTrieSuffix h ht htne hti) c
  · rintro ⟨hx, hxt⟩
    refine ⟨?_, ?_, hxt⟩
    · rcases suffix_snoc_decomp hx with rfl | ⟨t, rfl, ht⟩
      · exact List.nil_suffix
      · exact suffix_append_singleton (ht.trans h.1) c
    · intro heq
      subst heq
      have h1 := List.IsSuffix.length_le hx
      have h2 := List.IsSuffix.length_le h.1
      have h3 : s1.length < w.length := by
        rcases lt_or_eq_of_le h2 with hlt | heq2
        · exact hlt
        · exact absurd (List.IsSuffix.eq_of_length h.1 heq2) h.2.1
      simp at h1
      omega

/-- Trie-suffixes of `u ++ [c]` are exactly the trie-suffixes of `s ++ [c]`,
where `s` is the longest trie-suffix of `u`. -/
theorem max_snoc_seteq {ac : AhoCorasick} {u s : List Char} {c : Char}
    (h : MaxTrieSuffix ac u s) :
    ∀ x, (x <:+ u ++ [c] ∧ InTrie ac x) ↔ (x <:+ s ++ [c] ∧ InTrie ac x) := by
  intro x
  constructor
  · rintro ⟨hx, hxt⟩
    refine ⟨?_, hxt⟩
    rcases suffix_snoc_decomp hx with rfl | ⟨t, rfl, ht⟩
    · exact List.nil_suffix
    · have hti : InTrie ac t := inTrie_of_append hxt
      exact suffix_append_singleton (suffix_of_maxTrieSuffix h ht hti) c
  · rintro ⟨hx, hxt⟩
    refine ⟨?_, hxt⟩
    rcases suffix_snoc_decomp hx with rfl | ⟨t, rfl, ht⟩
    · exact List.nil_suffix
    · exact suffix_append_singleton (ht.trans h.1) c

theorem maxTrieSuffix_congr {ac : AhoCorasick} {w1 w2 : List Char}
    (h : ∀ x, (x <:+ w1 ∧ InTrie ac x) ↔ (x <:+ w2 ∧ InTrie ac x)) {s : List Char} :
    MaxTrieSuffix ac w1 s ↔ MaxTrieSuffix ac w2 s := by
  unfold MaxTrieSuffix
  constructor
  · rintro ⟨h1, h2, h3⟩
    obtain ⟨h1', _⟩ := (h s).mp ⟨h1, h2⟩
    refine ⟨h1', h2, ?_⟩
    intro t ht hti
    exact h3 t ((h t).mpr ⟨ht, hti⟩).1 hti
  · rintro ⟨h1, h2, h3⟩
    obtain ⟨h1', _⟩ := (h s).mpr ⟨h1, h2⟩
    refine ⟨h1', h2, ?_⟩
    intro t ht hti
    exact h3 t ((h t).mp ⟨ht, hti⟩).1 hti

theorem maxProper_iff_max_of_seteq {ac : AhoCorasick} {w1 w2 : List Char}
    (h : ∀ x, (x <:+ w1 ∧ x ≠ w1 ∧ InTrie ac x) ↔ (x <:+ w2 ∧ InTrie ac x)) {s : List Char} :
    MaxProperTrieSuffix ac w1 s ↔ MaxTrieSuffix ac w2 s := by
  unfold MaxProperTrieSuffix MaxTrieSuffix
  constructor
  · rintro ⟨h1, h2, h3, h4⟩
    obtain ⟨h1', _⟩ := (h s).mp ⟨h1, h2, h3⟩
    refine ⟨h1', h3, ?_⟩
    intro t ht hti
    obtain ⟨ht', htne, _⟩ := (h t).mpr ⟨ht, hti⟩
    exact h4 t ht' htne hti
  · rintro ⟨h1, h2, h3⟩
    obtain ⟨h1', h1ne, _⟩ := (h s).mpr ⟨h1, h2⟩
    refine ⟨h1', h1ne, h2, ?_⟩
    intro t ht htne hti
    exact h3 t ((h t).mp ⟨ht, htne, hti⟩).1 hti

/-! ## Fail-link and output correctness predicates -/

/-- The failure link of node `n` (read in the evolving `ac`) points at the
node of the longest proper trie-suffix of `n`'s word (words and nodes read in
the frozen trie structure `acStar`). -/
def FailCorrectAt (acStar ac : AhoCorasick) (n : Nat) : Prop :=
  ∀ w, walkT acStar w = some n → w ≠ [] →
    ∃ s m, MaxProperTrieSuffix acStar w s ∧ walkT acStar s = some m ∧
      (getNode ac n).failLink = some m

/-- The output of node `n` (read in `ac`) consists exactly of the patterns
whose lowered text is a suffix of `n`'s word. -/
def OutCorrectAt (patterns : List (List Char)) (acStar ac : AhoCorasick) (n : Nat) : Prop :=
  ∀ w, walkT acStar w = some n →
    ∀ p, p ∈ (getNode ac n).output ↔ p ∈ patterns ∧ lowerStr p <:+ w

theorem walkFrom_congr {acStar ac : AhoCorasick}
    (h : ∀ i, (getNode ac i).children = (getNode acStar i).children) :
    ∀ (w : List Char) (n : Nat), walkFrom ac n w = walkFrom acStar n w := by
  intro w
  induction w with
  | nil => intro n; rfl
  | cons c rest ih =>
    intro n
    simp only [walkFrom, h]
    cases lookupChild (getNode acStar n).children c with
    | none => rfl
    | some m => exact ih m

theorem proper_suffix_length_lt {s u : List Char} (hs : s <:+ u) (hne : s ≠ u) :
    s.length < u.length := by
  rcases lt_or_eq_of_le (List.IsSuffix.length_le hs) with h | h
  · exact h
  · exact absurd (List.IsSuffix.eq_of_length hs h) hne

/-- The failure chase (`findFailLoop`) from the node of `u`, on character `c`:
it stops at the node of the longest trie-suffix `t` of `u` such that `t ++ [c]`
is a trie word — and then `t ++ [c]` is the longest trie-suffix of `u ++ [c]` —
or at root with no `c`-child, in which case `u ++ [c]` has no non-empty
trie-suffix at all. -/
theorem chase_spec {acStar ac : AhoCorasick} (WF : TrieWF acStar)
    (hch : ∀ i, (getNode ac i).children = (getNode acStar i).children) :
    ∀ (fuel : Nat) (u : List Char) (m0 : Nat) (c : Char),
      walkT acStar u = some m0 →
      (∀ t n, t <:+ u → walkT acStar t = some n → FailCorrectAt acStar ac n) →
      u.length < fuel →
      ∃ t f, t <:+ u ∧ walkT acStar t = some f ∧
        findFailLoop fuel ac 0 m0 c = f ∧
        ((∃ g, lookupChild (getNode acStar f).children c = some g ∧
            MaxTrieSuffix acStar (u ++ [c]) (t ++ [c]) ∧
            walkT acStar (t ++ [c]) = some g)
         ∨ (lookupChild (getNode acStar f).children c = none ∧ f = 0 ∧
            MaxTrieSuffix acStar (u ++ [c]) [])) := by
  intro fuel
  induction fuel with
  | zero =>
    intro u m0 c _ _ hlen
    omega
  | succ fuel ih =>
    intro u m0 c hwalk hfin hlen
    by_cases hcond : m0 ≠ 0 ∧ lookupChild (getNode ac m0).children c = none
    · -- loop steps to the failure link
      obtain ⟨hm0, hlook⟩ := hcond
      have hune : u ≠ [] := by
        intro heq
        subst heq
        exact hm0 (Option.some.inj hwalk).symm
      obtain ⟨s1, m1, hmax1, hwalk1, hfail1⟩ :=
        hfin u m0 (List.suffix_refl u) hwalk u hwalk hune
      have hstep : findFailLoop (fuel + 1) ac 0 m0 c = findFailLoop fuel ac 0 m1 c := by
        simp only [findFailLoop]
        rw [if_pos ⟨hm0, hlook⟩, hfail1]
        rfl
      have hs1len : s1.length < u.length := proper_suffix_length_lt hmax1.1 hmax1.2.1
      obtain ⟨t, f, ht, hwt, hloop, hres⟩ := ih s1 m1 c hwalk1
        (fun t n hts hwn => hfin t n (hts.trans hmax1.1) hwn) (by omega)
      -- u ++ [c] is not itself a trie word (no c-child at m0)
      have hnotc : ¬ InTrie acStar (u ++ [c]) := by
        rintro ⟨n, hn⟩
        obtain ⟨m, hm, hl⟩ := (walk_concat acStar u c n).mp hn
        have hmm : m = m0 := Option.some.inj (hm.symm.trans hwalk)
        rw [hmm, ← hch m0, hlook] at hl
        exact Option.noConfusion hl
      -- transfer the max property from s1 ++ [c] to u ++ [c]
      have hseteq : ∀ x, (x <:+ u ++ [c] ∧ InTrie acStar x) ↔
          (x <:+ s1 ++ [c] ∧ InTrie acStar x) := by
        intro x
        constructor
        · rintro ⟨hx, hxt⟩
          have hxne : x ≠ u ++ [c] := by
            intro heq
            subst heq
            exact hnotc hxt
          exact (proper_snoc_seteq hmax1 x).mp ⟨hx, hxne, hxt⟩
        · rintro ⟨hx, hxt⟩
          obtain ⟨h1, _, h3⟩ := (proper_snoc_seteq hmax1 x).mpr ⟨hx, hxt⟩
          exact ⟨h1, h3⟩
      refine ⟨t, f, ht.trans hmax1.1, hwt, hstep.trans hloop, ?_⟩
      rcases hres with ⟨g, hg1, hg2, hg3⟩ | ⟨h1, h2, h3⟩
      · exact Or.inl ⟨g, hg1, (maxTrieSuffix_congr hseteq).mpr hg2, hg3⟩
      · exact Or.inr ⟨h1, h2, (maxTrieSuffix_congr hseteq).mpr h3⟩
    · -- loop stops here
      have hstop : findFailLoop (fuel + 1) ac 0 m0 c = m0 := by
        simp only [findFailLoop]
        rw [if_neg hcond]
      rcases Decidable.em (lookupChild (getNode ac m0).children c = none) with hnone | hsome
      · -- then m0 = 0 (the condition failed only because m0 = 0)
        have hm0 : m0 = 0 := by
          by_contra hne
          exact hcond ⟨hne, hnone⟩
        subst hm0
        have hu : u = [] := walkT_to_zero WF hwalk
        subst hu
        refine ⟨[], 0, List.nil_suffix, rfl, hstop, ?_⟩
        have hlook2 : lookupChild (getNode acStar 0).children c = none := by
          rw [← hch 0]
          exact hnone
        refine Or.inr ⟨hlook2, rfl, List.nil_suffix, inTrie_nil acStar, ?_⟩
        intro t ht hti
        rcases suffix_snoc_decomp ht with rfl | ⟨t1, rfl, ht1⟩
        · exact le_refl _
        · exfalso
          have : t1 = [] := List.eq_nil_of_suffix_nil ht1
          subst this
          obtain ⟨n, hn⟩ := hti
          obtain ⟨m, hm, hl⟩ := (walk_concat acStar [] c n).mp hn
          have : m = 0 := Option.some.inj hm.symm
          subst this
          rw [hl] at hlook2
          exact Option.noConfusion hlook2
      · -- m0 has a c-child: u itself extends
        cases hlook : lookupChild (getNode ac m0).children c with
        | none => exact absurd hlook hsome
        | some g =>
          refine ⟨u, m0, List.suffix_refl u, hwalk, hstop, ?_⟩
          have hlookStar : lookupChild (getNode acStar m0).children c = some g := by
            rw [← hch m0]
            exact hlook
          refine Or.inl ⟨g, hlookStar, ?_, ?_⟩
          · refine ⟨List.suffix_refl _, ?_, ?_⟩
            · exact ⟨g, (walk_concat acStar u c g).mpr ⟨m0, hwalk, hlookStar⟩⟩
            · intro t ht _
              exact List.IsSuffix.length_le ht
          · exact (walk_concat acStar u c g).mpr ⟨m0, hwalk, hlookStar⟩

/-! ## Depth of a node -/

/-- Node `n` is reached by a word of length `k` (its depth). -/
def NodeDepth (acStar : AhoCorasick) (n k : Nat) : Prop :=
  ∃ w, walkT acStar w = some n ∧ w.length = k

theorem nodeDepth_unique {acStar : AhoCorasick} (WF : TrieWF acStar) {n k k1 : Nat}
    (h : NodeDepth acStar n k) (h1 : NodeDepth acStar n k1) : k = k1 := by
  obtain ⟨w, hw, hwl⟩ := h
  obtain ⟨v, hv, hvl⟩ := h1
  rw [← hwl, ← hvl, walkT_inj WF n w v hw hv]

theorem nodeDepth_exists {acStar : AhoCorasick} (WF : TrieWF acStar) {n : Nat}
    (h : n < acStar.nextNodeId) : ∃ k, NodeDepth acStar n k := by
  obtain ⟨w, hw⟩ := WF.reach n h
  exact ⟨w.length, w, hw, rfl⟩

theorem nodeDepth_zero {acStar : AhoCorasick} (WF : TrieWF acStar) {k : Nat}
    (h : NodeDepth acStar 0 k) : k = 0 := by
  obtain ⟨w, hw, hwl⟩ := h
  rw [walkT_to_zero WF hw] at hwl
  simpa using hwl.symm

theorem nodeDepth_pos_ne_zero {acStar : AhoCorasick} (WF : TrieWF acStar) {n k : Nat}
    (h : NodeDepth acStar n k) (hk : 1 ≤ k) : n ≠ 0 := by
  intro heq
  subst heq
  rw [nodeDepth_zero WF h] at hk
  omega

theorem walkFrom_add_length {acStar : AhoCorasick} (WF : TrieWF acStar) :
    ∀ (w : List Char) (m n : Nat), walkFrom acStar m w = some n → m + w.length ≤ n := by
  intro w
  induction w with
  | nil =>
    intro m n h
    have hmn : m = n := Option.some.inj h
    simp only [List.length_nil]
    omega
  | cons c rest ih =>
    intro m n h
    simp only [walkFrom] at h
    cases hl : lookupChild (getNode acStar m).children c with
    | none =>
      rw [hl] at h
      exact absurd h (by simp)
    | some m1 =>
      rw [hl] at h
      have h2 := ih m1 n h
      by_cases hm : m < acStar.nextNodeId
      · have := (WF.child_gt m hm _ (lookupChild_mem hl)).1
        simp only [List.length_cons]
        omega
      · rw [children_oob WF (by omega)] at hl
        rw [lookupChild_nil] at hl
        exact absurd hl (by simp)

/-- A node's depth is at most its id (ids strictly increase along edges). -/
theorem nodeDepth_le_id {acStar : AhoCorasick} (WF : TrieWF acStar) {n k : Nat}
    (h : NodeDepth acStar n k) : k ≤ n := by
  obtain ⟨w, hw, hwl⟩ := h
  have := walkFrom_add_length WF w 0 n hw
  omega

/-- Ancestors at every smaller depth. -/
theorem nodeDepth_ancestor {acStar : AhoCorasick} {n k : Nat}
    (h : NodeDepth acStar n k) (j : Nat) (hj : j ≤ k) :
    ∃ m, NodeDepth acStar m j := by
  obtain ⟨w, hw, hwl⟩ := h
  unfold walkT at hw
  rw [← List.take_append_drop j w, walkFrom_append] at hw
  cases ht : walkFrom acStar 0 (w.take j) with
  | none =>
    rw [ht] at hw
    exact absurd hw (by simp)
  | some m =>
    refine ⟨m, w.take j, ht, ?_⟩
    rw [List.length_take]
    omega

/-- The parent edge of a node of positive depth. -/
theorem nodeDepth_parent {acStar : AhoCorasick} (WF : TrieWF acStar) {n k : Nat}
    (h : NodeDepth acStar n (k + 1)) :
    ∃ m c, NodeDepth acStar m k ∧ (c, n) ∈ (getNode acStar m).children ∧
      m < acStar.nextNodeId := by
  obtain ⟨w, hw, hwl⟩ := h
  rcases List.eq_nil_or_concat w with rfl | ⟨w1, c, rfl⟩
  · simp at hwl
  · rw [List.concat_eq_append] at hw hwl
    obtain ⟨m, hm, hl⟩ := (walk_concat acStar w1 c n).mp hw
    simp only [List.length_append, List.length_cons, List.length_nil] at hwl
    exact ⟨m, c, ⟨w1, hm, by omega⟩, lookupChild_mem hl, walkT_in_range WF hm⟩

/-- The targets of a children map are pairwise distinct. -/
theorem children_snd_nodup {acStar : AhoCorasick} (WF : TrieWF acStar) {m : Nat}
    (hm : m < acStar.nextNodeId) : ((getNode acStar m).children.map Prod.snd).Nodup := by
  have hkeys := WF.keys_nodup m hm
  have hnodup : (getNode acStar m).children.Nodup := hkeys.of_map
  refine hnodup.map_on ?_
  intro x hx y hy hxy
  cases x with
  | mk c1 j1 =>
    cases y with
    | mk c2 j2 =>
      simp only at hxy
      subst hxy
      obtain ⟨_, hc⟩ := WF.parent_unique j1 m m c1 c2 hm hm hx hy
      rw [hc]

/-! ## `processChild` correctness -/

theorem lowerStr_eq_nil {p : List Char} : lowerStr p = [] ↔ p = [] := by
  unfold lowerStr
  constructor
  · intro h
    cases p with
    | nil => rfl
    | cons c rest => exact absurd h (by simp)
  · intro h
    rw [h]
    rfl

theorem getNode_processChild_ne (ac : AhoCorasick) (r n : Nat) (c : Char) (child i : Nat)
    (h : i ≠ child) : getNode (processChild ac r n c child) i = getNode ac i := by
  unfold processChild
  exact getNode_setNode_ne _ _ _ _ h

theorem processChild_nextNodeId (ac : AhoCorasick) (r n : Nat) (c : Char) (child : Nat) :
    (processChild ac r n c child).nextNodeId = ac.nextNodeId := rfl

theorem processChild_root (ac : AhoCorasick) (r n : Nat) (c : Char) (child : Nat) :
    (processChild ac r n c child).root = ac.root := rfl

theorem processChild_length (ac : AhoCorasick) (r n : Nat) (c : Char) (child : Nat) :
    (processChild ac r n c child).nodes.length = ac.nodes.length := by
  unfold processChild
  exact setNode_length _ _ _

theorem getNode_processChild_self (ac : AhoCorasick) (r n : Nat) (c : Char) (child : Nat)
    (hlen : child < ac.nodes.length) :
    getNode (processChild ac r n c child) child =
      { getNode ac child with
          failLink := some (match lookupChild (getNode ac
              (findFailLoop ac.nextNodeId ac r ((getNode ac n).failLink.getD r) c)).children c with
            | some t => t
            | none => r),
          output := (getNode ac child).output ++
            (getNode ac (match lookupChild (getNode ac
                (findFailLoop ac.nextNodeId ac r ((getNode ac n).failLink.getD r) c)).children c with
              | some t => t
              | none => r)).output } := by
  unfold processChild
  exact getNode_setNode_self _ _ _ hlen

theorem processChild_children (ac : AhoCorasick) (r n : Nat) (c : Char) (child i : Nat) :
    (getNode (processChild ac r n c child) i).children = (getNode ac i).children := by
  by_cases h : i = child
  · subst h
    by_cases hlen : i < ac.nodes.length
    · rw [getNode_processChild_self ac r n c i hlen]
    · have hset : ∀ (nd : TrieNode), ac.nodes.set i nd = ac.nodes :=
        fun nd => List.set_eq_of_length_le (by omega)
      unfold processChild setNode getNode
      simp only [hset]
  · rw [getNode_processChild_ne ac r n c child i h]

theorem processChild_id (ac : AhoCorasick) (r n : Nat) (c : Char) (child i : Nat) :
    (getNode (processChild ac r n c child) i).id = (getNode ac i).id := by
  by_cases h : i = child
  · subst h
    by_cases hlen : i < ac.nodes.length
    · rw [getNode_processChild_self ac r n c i hlen]
    · have hset : ∀ (nd : TrieNode), ac.nodes.set i nd = ac.nodes :=
        fun nd => List.set_eq_of_length_le (by omega)
      unfold processChild setNode getNode
      simp only [hset]
  · rw [getNode_processChild_ne ac r n c child i h]

/-- Correctness of one `processChild` call: the child of a finalized node
acquires its correct failure link and its fully merged output; nothing else
changes. -/
theorem processChild_spec {patterns : List (List Char)} {acStar ac : AhoCorasick}
    (WF : TrieWF acStar)
    (hne : ∀ p ∈ patterns, p ≠ [])
    (hio : InsOut patterns acStar)
    (hpw : PatWords patterns acStar)
    (hch : ∀ i, (getNode ac i).children = (getNode acStar i).children)
    (hnn : ac.nextNodeId = acStar.nextNodeId)
    (hlen : ac.nodes.length = acStar.nodes.length)
    {n : Nat} {w : List Char} (hw : walkT acStar w = some n) (hwne : w ≠ [])
    (hfin : ∀ m1 k, NodeDepth acStar m1 k → k ≤ w.length →
      FailCorrectAt acStar ac m1 ∧ OutCorrectAt patterns acStar ac m1)
    {c : Char} {child : Nat} (hcc : (c, child) ∈ (getNode acStar n).children)
    (huntouched : getNode ac child = getNode acStar child) :
    (∀ i, i ≠ child → getNode (processChild ac 0 n c child) i = getNode ac i)
    ∧ FailCorrectAt acStar (processChild ac 0 n c child) child
    ∧ OutCorrectAt patterns acStar (processChild ac 0 n c child) child := by
  have hnN : n < acStar.nextNodeId := walkT_in_range WF hw
  have hlookn : lookupChild (getNode acStar n).children c = some child :=
    mem_lookupChild (WF.keys_nodup n hnN) hcc
  have hwc : walkT acStar (w ++ [c]) = some child :=
    (walk_concat acStar w c child).mpr ⟨n, hw, hlookn⟩
  have hchildN : child < acStar.nextNodeId := walkT_in_range WF hwc
  have hchildlen : child < ac.nodes.length := by
    rw [hlen, WF.len_eq]
    exact hchildN
  -- the stored failure link of n
  obtain ⟨s1, m1, hmax1, hwalks1, hfl⟩ :=
    (hfin n w.length ⟨w, hw, rfl⟩ (le_refl _)).1 w hw hwne
  have hs1len : s1.length < w.length := proper_suffix_length_lt hmax1.1 hmax1.2.1
  have hwlen : w.length ≤ n := by
    have := walkFrom_add_length WF w 0 n hw
    omega
  -- run the chase
  obtain ⟨t, f, ht, hwt, hloop, hres⟩ := chase_spec WF hch ac.nextNodeId s1 m1 c hwalks1
    (by
      intro t1 n1 ht1 hw1
      refine (hfin n1 t1.length ⟨t1, hw1, rfl⟩ ?_).1
      have := List.IsSuffix.length_le ht1
      omega)
    (by rw [hnn]; omega)
  have hstart : (getNode ac n).failLink.getD 0 = m1 := by
    rw [hfl]
    rfl
  -- per-case value of the new failure link
  have hproc : ∀ FL : Nat,
      (match lookupChild (getNode ac f).children c with
        | some t => t
        | none => 0) = FL →
      getNode (processChild ac 0 n c child) child =
        { getNode ac child with
            failLink := some FL,
            output := (getNode ac child).output ++ (getNode ac FL).output } := by
    intro FL hFL
    rw [getNode_processChild_self ac 0 n c child hchildlen]
    rw [hstart, hloop, hFL]
  have hwchild_uniq : ∀ w1, walkT acStar w1 = some child → w1 = w ++ [c] := by
    intro w1 hw1
    exact walkT_inj WF child w1 (w ++ [c]) hw1 hwc
  -- child's insertion output
  have hinsout : ∀ p, p ∈ (getNode ac child).output ↔
      p ∈ patterns ∧ lowerStr p = w ++ [c] := by
    intro p
    rw [huntouched]
    rw [hio child p]
    constructor
    · rintro ⟨h1, h2⟩
      exact ⟨h1, hwchild_uniq _ h2⟩
    · rintro ⟨h1, h2⟩
      exact ⟨h1, h2 ▸ hwc⟩
  rcases hres with ⟨g, hg1, hg2, hg3⟩ | ⟨hg1, hg2, hg3⟩
  · -- case (i): a real failure target g = node of (t ++ [c])
    have hFL : (match lookupChild (getNode ac f).children c with
        | some t => t
        | none => 0) = g := by
      rw [hch f, hg1]
    have hnode := hproc g hFL
    have hmaxwc : MaxProperTrieSuffix acStar (w ++ [c]) (t ++ [c]) :=
      (maxProper_iff_max_of_seteq (proper_snoc_seteq hmax1)).mpr hg2
    have htc_len : t.length + 1 ≤ w.length := by
      have := List.IsSuffix.length_le ht
      omega
    have houtg : OutCorrectAt patterns acStar ac g :=
      (hfin g (t.length + 1) ⟨t ++ [c], hg3, by simp⟩ htc_len).2
    refine ⟨fun i hi => getNode_processChild_ne ac 0 n c child i hi, ?_, ?_⟩
    · intro w1 hw1 _
      have hw1eq := hwchild_uniq w1 hw1
      subst hw1eq
      refine ⟨t ++ [c], g, hmaxwc, hg3, ?_⟩
      rw [hnode]
    · intro w1 hw1 p
      have hw1eq := hwchild_uniq w1 hw1
      subst hw1eq
      rw [hnode]
      simp only [List.mem_append]
      rw [hinsout p, houtg (t ++ [c]) hg3 p]
      constructor
      · rintro (⟨h1, h2⟩ | ⟨h1, h2⟩)
        · exact ⟨h1, h2 ▸ List.suffix_refl _⟩
        · refine ⟨h1, h2.trans ?_⟩
          exact suffix_append_singleton (ht.trans hmax1.1) c
      · rintro ⟨h1, h2⟩
        by_cases heq : lowerStr p = w ++ [c]
        · exact Or.inl ⟨h1, heq⟩
        · right
          refine ⟨h1, ?_⟩
          obtain ⟨mm, hmm⟩ := hpw p h1
          have hintrie : InTrie acStar (lowerStr p) := ⟨mm, hmm⟩
          have hs1c := (proper_snoc_seteq hmax1 (lowerStr p)).mp ⟨h2, heq, hintrie⟩
          exact suffix_of_maxTrieSuffix hg2 hs1c.1 hs1c.2
  · -- case (ii): no extendable suffix; failure link is root
    have hFL : (match lookupChild (getNode ac f).children c with
        | some t => t
        | none => 0) = 0 := by
      rw [hch f, hg1]
    have hnode := hproc 0 hFL
    have hmaxwc : MaxProperTrieSuffix acStar (w ++ [c]) [] :=
      (maxProper_iff_max_of_seteq (proper_snoc_seteq hmax1)).mpr hg3
    have hout0 : OutCorrectAt patterns acStar ac 0 :=
      (hfin 0 0 ⟨[], rfl, rfl⟩ (by omega)).2
    have hout0_empty : ∀ p, p ∈ (getNode ac 0).output → False := by
      intro p hp
      obtain ⟨h1, h2⟩ := (hout0 [] rfl p).mp hp
      have : p = [] := by
        rw [← lowerStr_eq_nil]
        exact List.eq_nil_of_suffix_nil h2
      exact hne p h1 this
    refine ⟨fun i hi => getNode_processChild_ne ac 0 n c child i hi, ?_, ?_⟩
    · intro w1 hw1 _
      have hw1eq := hwchild_uniq w1 hw1
      subst hw1eq
      refine ⟨[], 0, hmaxwc, rfl, ?_⟩
      rw [hnode]
    · intro w1 hw1 p
      have hw1eq := hwchild_uniq w1 hw1
      subst hw1eq
      rw [hnode]
      simp only [List.mem_append]
      rw [hinsout p]
      constructor
      · rintro (⟨h1, h2⟩ | hmem)
        · exact ⟨h1, h2 ▸ List.suffix_refl _⟩
        · exact absurd hmem (fun hmem1 => hout0_empty p hmem1)
      · rintro ⟨h1, h2⟩
        by_cases heq : lowerStr p = w ++ [c]
        · exact Or.inl ⟨h1, heq⟩
        · exfalso
          obtain ⟨mm, hmm⟩ := hpw p h1
          have hintrie : InTrie acStar (lowerStr p) := ⟨mm, hmm⟩
          have hs1c := (proper_snoc_seteq hmax1 (lowerStr p)).mp ⟨h2, heq, hintrie⟩
          have : lowerStr p <:+ [] := suffix_of_maxTrieSuffix hg3 hs1c.1 hs1c.2
          have hpnil : p = [] := by
            rw [← lowerStr_eq_nil]
            exact List.eq_nil_of_suffix_nil this
          exact hne p h1 hpnil

theorem failCorrect_congr {acStar ac ac1 : AhoCorasick} {m : Nat}
    (h : getNode ac1 m = getNode ac m) (hf : FailCorrectAt acStar ac m) :
    FailCorrectAt acStar ac1 m := by
  intro w hw hwne
  obtain ⟨s, m1, h1, h2, h3⟩ := hf w hw hwne
  exact ⟨s, m1, h1, h2, by rw [h]; exact h3⟩

theorem outCorrect_congr {patterns : List (List Char)} {acStar ac ac1 : AhoCorasick} {m : Nat}
    (h : getNode ac1 m = getNode ac m) (hf : OutCorrectAt patterns acStar ac m) :
    OutCorrectAt patterns acStar ac1 m := by
  intro w hw p
  rw [h]
  exact hf w hw p

/-- Folding `processChild` over a batch of children of the dequeued node `n`
(whose word is `w`): every target becomes correct, already-correct nodes stay
correct, and untouched nodes stay untouched. `F` is the set of
already-finalized nodes. -/
theorem foldChildren_spec {patterns : List (List Char)} {acStar : AhoCorasick}
    (WF : TrieWF acStar)
    (hne : ∀ p ∈ patterns, p ≠ [])
    (hio : InsOut patterns acStar)
    (hpw : PatWords patterns acStar)
    {n : Nat} {w : List Char} (hw : walkT acStar w = some n) (hwne : w ≠ []) :
    ∀ (cs : List (Char × Nat)) (ac : AhoCorasick) (F : Nat → Prop),
      (∀ i, (getNode ac i).children = (getNode acStar i).children) →
      ac.nextNodeId = acStar.nextNodeId →
      ac.nodes.length = acStar.nodes.length →
      (∀ q ∈ cs, q ∈ (getNode acStar n).children) →
      (∀ q ∈ cs, ¬ F q.2) →
      (cs.map Prod.snd).Nodup →
      (∀ m, F m → FailCorrectAt acStar ac m ∧ OutCorrectAt patterns acStar ac m) →
      (∀ m1 k, NodeDepth acStar m1 k → k ≤ w.length → F m1) →
      (∀ m, ¬ F m → getNode ac m = getNode acStar m) →
      ((∀ i, (getNode (cs.foldl (fun acc p => processChild acc 0 n p.1 p.2) ac) i).children
          = (getNode acStar i).children)
       ∧ (cs.foldl (fun acc p => processChild acc 0 n p.1 p.2) ac).nextNodeId
          = acStar.nextNodeId
       ∧ (cs.foldl (fun acc p => processChild acc 0 n p.1 p.2) ac).nodes.length
          = acStar.nodes.length
       ∧ (cs.foldl (fun acc p => processChild acc 0 n p.1 p.2) ac).root = ac.root
       ∧ (∀ m, F m ∨ m ∈ cs.map Prod.snd →
           FailCorrectAt acStar (cs.foldl (fun acc p => processChild acc 0 n p.1 p.2) ac) m
           ∧ OutCorrectAt patterns acStar
              (cs.foldl (fun acc p => processChild acc 0 n p.1 p.2) ac) m)
       ∧ (∀ m, ¬ F m → m ∉ cs.map Prod.snd →
           getNode (cs.foldl (fun acc p => processChild acc 0 n p.1 p.2) ac) m
             = getNode acStar m)) := by
  intro cs
  induction cs with
  | nil =>
    intro ac F hch hnn hlen _ _ _ hF _ hunt
    refine ⟨hch, hnn, hlen, rfl, ?_, ?_⟩
    · intro m hm
      rcases hm with hm | hm
      · exact hF m hm
      · simp at hm
    · intro m hm _
      exact hunt m hm
  | cons q cs ih =>
    intro ac F hch hnn hlen hmem hnF hnodup hF hdepF hunt
    cases q with
    | mk c child =>
      simp only [List.foldl_cons]
      have hq_mem : (c, child) ∈ (getNode acStar n).children :=
        hmem (c, child) (List.mem_cons_self _ _)
      have hnFc : ¬ F child := hnF (c, child) (List.mem_cons_self _ _)
      obtain ⟨hother, hfailc, houtc⟩ := processChild_spec WF hne hio hpw hch hnn hlen hw hwne
        (fun m1 k hd hk => hF m1 (hdepF m1 k hd hk)) hq_mem (hunt child hnFc)
      have hch1 : ∀ i, (getNode (processChild ac 0 n c child) i).children
          = (getNode acStar i).children := by
        intro i
        rw [processChild_children]
        exact hch i
      have hnodup1 : (cs.map Prod.snd).Nodup := by
        simp only [List.map_cons, List.nodup_cons] at hnodup
        exact hnodup.2
      have hchildnotin : child ∉ cs.map Prod.snd := by
        simp only [List.map_cons, List.nodup_cons] at hnodup
        exact hnodup.1
      have hres := ih (processChild ac 0 n c child) (fun m => F m ∨ m = child)
        hch1
        (by rw [processChild_nextNodeId]; exact hnn)
        (by rw [processChild_length]; exact hlen)
        (fun q1 hq1 => hmem q1 (List.mem_cons_of_mem _ hq1))
        (by
          rintro q1 hq1 (hF1 | hEq)
          · exact hnF q1 (List.mem_cons_of_mem _ hq1) hF1
          · exact hchildnotin (hEq ▸ List.mem_map_of_mem Prod.snd hq1))
        hnodup1
        (by
          rintro m (hFm | rfl)
          · have hne_child : m ≠ child := fun heq => hnFc (heq ▸ hFm)
            have hg := hother m hne_child
            exact ⟨failCorrect_congr hg (hF m hFm).1, outCorrect_congr hg (hF m hFm).2⟩
          · exact ⟨hfailc, houtc⟩)
        (fun m1 k hd hk => Or.inl (hdepF m1 k hd hk))
        (by
          intro m hm
          have hm1 : ¬ F m := fun h => hm (Or.inl h)
          have hm2 : m ≠ child := fun h => hm (Or.inr h)
          rw [hother m hm2]
          exact hunt m hm1)
      refine ⟨hres.1, hres.2.1, hres.2.2.1, ?_, ?_, ?_⟩
      · rw [hres.2.2.2.1, processChild_root]
      · intro m hm
        refine hres.2.2.2.2.1 m ?_
        rcases hm with hm | hm
        · exact Or.inl (Or.inl hm)
        · simp only [List.map_cons, List.mem_cons] at hm
          rcases hm with rfl | hm
          · exact Or.inl (Or.inr rfl)
          · exact Or.inr hm
      · intro m hm hm2
        simp only [List.map_cons, List.mem_cons] at hm2
        push_neg at hm2
        refine hres.2.2.2.2.2 m ?_ ?_
        · rintro (hFm | rfl)
          · exact hm hFm
          · exact hm2.1 rfl
        · exact fun hmem2 => hm2.2 hmem2

/-! ## The BFS invariant -/

/-- Invariant of `buildFailLinks`' BFS loop.  `dq` are the dequeued nodes so
far; the pending queue is `q1 ++ q2` with `q1` the depth-`d` block and `q2`
the depth-`d+1` block (children of already-dequeued depth-`d` nodes).
A node is finalized — failure link and output correct — iff its depth is at
most `d` or it belongs to `q2`. -/
structure BfsInv (patterns : List (List Char)) (acStar ac : AhoCorasick)
    (dq q1 q2 : List Nat) (d : Nat) : Prop where
  hch : ∀ i, (getNode ac i).children = (getNode acStar i).children
  hnn : ac.nextNodeId = acStar.nextNodeId
  hlen : ac.nodes.length = acStar.nodes.length
  dq_dep : ∀ n ∈ dq, ∃ k, 1 ≤ k ∧ k ≤ d ∧ NodeDepth acStar n k
  q1_dep : ∀ n ∈ q1, NodeDepth acStar n d
  q2_dep : ∀ n ∈ q2, NodeDepth acStar n (d + 1)
  dpos : 1 ≤ d
  fin_ok : ∀ n k, NodeDepth acStar n k → (k ≤ d ∨ n ∈ q2) →
    FailCorrectAt acStar ac n ∧ OutCorrectAt patterns acStar ac n
  untouched : ∀ n k, NodeDepth acStar n k → ¬ (k ≤ d ∨ n ∈ q2) →
    getNode ac n = getNode acStar n
  cover_lt : ∀ n k, 1 ≤ k → k < d → NodeDepth acStar n k → n ∈ dq
  cover_d : ∀ n, NodeDepth acStar n d → n ∈ dq ∨ n ∈ q1
  cover_d1 : ∀ n m c, NodeDepth acStar n (d + 1) → (c, n) ∈ (getNode acStar m).children →
    m < acStar.nextNodeId → (m ∈ dq ↔ n ∈ q2)
  qnodup : (dq ++ (q1 ++ q2)).Nodup

/-- A parent edge pins down the parent's depth. -/
theorem parent_depth {acStar : AhoCorasick} (WF : TrieWF acStar) {n m : Nat} {c : Char}
    {k : Nat} (hd : NodeDepth acStar n (k + 1)) (hedge : (c, n) ∈ (getNode acStar m).children)
    (hm : m < acStar.nextNodeId) : NodeDepth acStar m k := by
  obtain ⟨m1, c1, hm1d, hm1e, hm1r⟩ := nodeDepth_parent WF hd
  obtain ⟨heq, _⟩ := WF.parent_unique n m m1 c c1 hm hm1r hedge hm1e
  rw [heq]
  exact hm1d

/-- Shifting to the next depth level when the depth-`d` block is exhausted. -/
theorem bfs_shift {patterns : List (List Char)} {acStar ac : AhoCorasick}
    (WF : TrieWF acStar) {dq q2 : List Nat} {d : Nat}
    (inv : BfsInv patterns acStar ac dq [] q2 d) :
    BfsInv patterns acStar ac dq q2 [] (d + 1) := by
  have hq2 : ∀ n, NodeDepth acStar n (d + 1) → n ∈ q2 := by
    intro n hd
    obtain ⟨m, c, hmd, hme, hmr⟩ := nodeDepth_parent WF hd
    have hmdq : m ∈ dq := by
      rcases inv.cover_d m hmd with h | h
      · exact h
      · simp at h
    exact (inv.cover_d1 n m c hd hme hmr).mp hmdq
  refine ⟨inv.hch, inv.hnn, inv.hlen, ?_, inv.q2_dep, ?_, by omega, ?_, ?_, ?_, ?_, ?_, ?_⟩
  · intro n hn
    obtain ⟨k, h1, h2, h3⟩ := inv.dq_dep n hn
    exact ⟨k, h1, by omega, h3⟩
  · intro n hn
    simp at hn
  · intro n k hd hcase
    have hk : k ≤ d + 1 := by
      rcases hcase with h | h
      · exact h
      · simp at h
    rcases Nat.lt_or_ge k (d + 1) with hlt | hge
    · exact inv.fin_ok n k hd (Or.inl (by omega))
    · have hkd : k = d + 1 := by omega
      subst hkd
      exact inv.fin_ok n (d + 1) hd (Or.inr (hq2 n hd))
  · intro n k hd hcase
    refine inv.untouched n k hd ?_
    rintro (h | h)
    · exact hcase (Or.inl (by omega))
    · have := inv.q2_dep n h
      have := nodeDepth_unique WF hd this
      exact hcase (Or.inl (by omega))
  · intro n k h1 h2 hd
    rcases Nat.lt_or_ge k d with hlt | hge
    · exact inv.cover_lt n k h1 hlt hd
    · have : k = d := by omega
      subst this
      rcases inv.cover_d n hd with h | h
      · exact h
      · simp at h
  · intro n hd
    exact Or.inr (hq2 n hd)
  · intro n m c hd hedge hm
    constructor
    · intro hmdq
      exfalso
      obtain ⟨k, hk1, hk2, hk3⟩ := inv.dq_dep m hmdq
      have hmd : NodeDepth acStar m (d + 1) := parent_depth WF hd hedge hm
      have := nodeDepth_unique WF hk3 hmd
      omega
    · intro h
      simp at h
  · have := inv.qnodup
    simpa using this

/-- Distinct node ids in `[1, N)` number at most `N - 1`. -/
theorem nodup_bounded_length {l : List Nat} (hnd : l.Nodup) (N : Nat)
    (hmem : ∀ x ∈ l, 1 ≤ x ∧ x < N) : l.length ≤ N - 1 := by
  classical
  have hsub : l.toFinset ⊆ Finset.Ioo 0 N := by
    intro x hx
    rw [List.mem_toFinset] at hx
    obtain ⟨h1, h2⟩ := hmem x hx
    rw [Finset.mem_Ioo]
    omega
  have hcard := Finset.card_le_card hsub
  rw [List.toFinset_card_of_nodup hnd, Nat.card_Ioo] at hcard
  omega

/-- `bfsLoop` never changes children maps, sizes or the root pointer. -/
theorem foldProcess_struct (r n : Nat) :
    ∀ (cs : List (Char × Nat)) (ac : AhoCorasick),
      (∀ i, (getNode (cs.foldl (fun acc p => processChild acc r n p.1 p.2) ac) i).children
        = (getNode ac i).children)
      ∧ (cs.foldl (fun acc p => processChild acc r n p.1 p.2) ac).nextNodeId = ac.nextNodeId
      ∧ (cs.foldl (fun acc p => processChild acc r n p.1 p.2) ac).root = ac.root
      ∧ (cs.foldl (fun acc p => processChild acc r n p.1 p.2) ac).nodes.length
        = ac.nodes.length := by
  intro cs
  induction cs with
  | nil => intro ac; exact ⟨fun i => rfl, rfl, rfl, rfl⟩
  | cons q rest ih =>
    intro ac
    simp only [List.foldl_cons]
    obtain ⟨h1, h2, h3, h4⟩ := ih (processChild ac r n q.1 q.2)
    refine ⟨?_, ?_, ?_, ?_⟩
    · intro i
      rw [h1 i, processChild_children]
    · rw [h2, processChild_nextNodeId]
    · rw [h3, processChild_root]
    · rw [h4, processChild_length]

theorem bfsLoop_struct (r : Nat) :
    ∀ (fuel : Nat) (ac : AhoCorasick) (q : List Nat),
      (∀ i, (getNode (bfsLoop fuel ac r q) i).children = (getNode ac i).children)
      ∧ (bfsLoop fuel ac r q).nextNodeId = ac.nextNodeId
      ∧ (bfsLoop fuel ac r q).root = ac.root
      ∧ (bfsLoop fuel ac r q).nodes.length = ac.nodes.length := by
  intro fuel
  induction fuel with
  | zero => intro ac q; exact ⟨fun i => rfl, rfl, rfl, rfl⟩
  | succ fuel ih =>
    intro ac q
    cases q with
    | nil => exact ⟨fun i => rfl, rfl, rfl, rfl⟩
    | cons n rest =>
      simp only [bfsLoop]
      obtain ⟨f1, f2, f3, f4⟩ := foldProcess_struct r n (getNode ac n).children ac
      obtain ⟨h1, h2, h3, h4⟩ := ih
        ((getNode ac n).children.foldl (fun acc p => processChild acc r n p.1 p.2) ac)
        (rest ++ (getNode ac n).children.map (·.2))
      refine ⟨?_, ?_, ?_, ?_⟩
      · intro i
        rw [h1 i, f1 i]
      · rw [h2, f2]
      · rw [h3, f3]
      · rw [h4, f4]

/-- One dequeue of the BFS loop: processing the children of the front node
`n` re-establishes the invariant with `n` moved to the dequeued list and its
children appended to the depth-`d+1` block. -/
theorem bfs_dequeue {patterns : List (List Char)} {acStar ac : AhoCorasick}
    (WF : TrieWF acStar)
    (hne : ∀ p ∈ patterns, p ≠ [])
    (hio : InsOut patterns acStar)
    (hpw : PatWords patterns acStar)
    {dq q1' q2 : List Nat} {n d : Nat}
    (inv : BfsInv patterns acStar ac dq (n :: q1') q2 d) :
    ∀ fuel : Nat,
      bfsLoop (fuel + 1) ac 0 ((n :: q1') ++ q2) =
        bfsLoop fuel
          ((getNode acStar n).children.foldl (fun acc p => processChild acc 0 n p.1 p.2) ac)
          0 (q1' ++ (q2 ++ (getNode acStar n).children.map (·.2)))
      ∧ BfsInv patterns acStar
          ((getNode acStar n).children.foldl (fun acc p => processChild acc 0 n p.1 p.2) ac)
          (dq ++ [n]) q1' (q2 ++ (getNode acStar n).children.map (·.2)) d := by
  intro fuel
  have hnd : NodeDepth acStar n d := inv.q1_dep n (List.mem_cons_self _ _)
  obtain ⟨w, hw, hwl⟩ := hnd
  have hwne : w ≠ [] := by
    intro heq
    subst heq
    have := inv.dpos
    simp at hwl
    omega
  have hnN : n < acStar.nextNodeId := walkT_in_range WF hw
  have hnotdq : n ∉ dq := by
    have hnd2 := inv.qnodup
    rw [List.nodup_append] at hnd2
    intro hmem
    exact hnd2.2.2 hmem (by simp)
  have hchild_dep : ∀ m, m ∈ (getNode acStar n).children.map (·.2) →
      NodeDepth acStar m (d + 1) := by
    intro m hm
    obtain ⟨q, hq, hq2⟩ := List.mem_map.mp hm
    have hedge : (q.1, m) ∈ (getNode acStar n).children := by
      cases q
      simp only at hq2
      subst hq2
      exact hq
    have hlookn : lookupChild (getNode acStar n).children q.1 = some m :=
      mem_lookupChild (WF.keys_nodup n hnN) hedge
    refine ⟨w ++ [q.1], (walk_concat acStar w q.1 m).mpr ⟨n, hw, hlookn⟩, ?_⟩
    simp [hwl]
  have hnF : ∀ q, q ∈ (getNode acStar n).children →
      ¬ ∃ k, NodeDepth acStar q.2 k ∧ (k ≤ d ∨ q.2 ∈ q2) := by
    rintro q hq ⟨k, hk, hcase⟩
    have hq2d : NodeDepth acStar q.2 (d + 1) :=
      hchild_dep q.2 (List.mem_map_of_mem _ hq)
    have hkd := nodeDepth_unique WF hk hq2d
    subst hkd
    rcases hcase with h | h
    · omega
    · have hedge : (q.1, q.2) ∈ (getNode acStar n).children := by
        cases q
        exact hq
      exact hnotdq ((inv.cover_d1 q.2 n q.1 hq2d hedge hnN).mpr h)
  obtain ⟨fc1, fc2, fc3, fc4, fcorrect, funt⟩ :=
    foldChildren_spec WF hne hio hpw hw hwne (getNode acStar n).children ac
      (fun m => ∃ k, NodeDepth acStar m k ∧ (k ≤ d ∨ m ∈ q2))
      inv.hch inv.hnn inv.hlen (fun q hq => hq) hnF
      (children_snd_nodup WF hnN)
      (by
        rintro m ⟨k, hk, hcase⟩
        exact inv.fin_ok m k hk hcase)
      (by
        intro m1 k hd1 hk
        exact ⟨k, hd1, Or.inl (by omega)⟩)
      (by
        intro m hm
        by_cases hmN : m < acStar.nextNodeId
        · obtain ⟨k, hk⟩ := nodeDepth_exists WF hmN
          refine inv.untouched m k hk ?_
          intro hcase
          exact hm ⟨k, hk, hcase⟩
        · have h1 : ac.nodes.length ≤ m := by
            rw [inv.hlen, WF.len_eq]
            omega
          have h2 : acStar.nodes.length ≤ m := by
            rw [WF.len_eq]
            omega
          rw [getNode_oob ac m h1, getNode_oob acStar m h2])
  constructor
  · -- the loop equation
    show bfsLoop (fuel + 1) ac 0 (n :: (q1' ++ q2)) = _
    simp only [bfsLoop]
    rw [inv.hch n]
    rw [List.append_assoc]
  · -- the new invariant
    refine ⟨fc1, fc2, fc3, ?_, ?_, ?_, inv.dpos, ?_, ?_, ?_, ?_, ?_, ?_⟩
    · -- dq_dep
      intro m hm
      rcases List.mem_append.mp hm with hm | hm
      · exact inv.dq_dep m hm
      · rw [List.mem_singleton] at hm
        subst hm
        exact ⟨d, inv.dpos, le_refl d, w, hw, hwl⟩
    · -- q1_dep
      intro m hm
      exact inv.q1_dep m (List.mem_cons_of_mem _ hm)
    · -- q2_dep
      intro m hm
      rcases List.mem_append.mp hm with hm | hm
      · exact inv.q2_dep m hm
      · exact hchild_dep m hm
    · -- fin_ok
      intro m k hk hcase
      refine fcorrect m ?_
      rcases hcase with h | h
      · exact Or.inl ⟨k, hk, Or.inl h⟩
      · rcases List.mem_append.mp h with h | h
        · exact Or.inl ⟨k, hk, Or.inr h⟩
        · exact Or.inr h
    · -- untouched
      intro m k hk hcase
      refine funt m ?_ ?_
      · rintro ⟨k1, hk1, hcase1⟩
        have := nodeDepth_unique WF hk hk1
        subst this
        rcases hcase1 with h | h
        · exact hcase (Or.inl h)
        · exact hcase (Or.inr (List.mem_append_left _ h))
      · intro hmem
        exact hcase (Or.inr (List.mem_append_right _ hmem))
    · -- cover_lt
      intro m k h1 h2 hk
      exact List.mem_append_left _ (inv.cover_lt m k h1 h2 hk)
    · -- cover_d
      intro m hm
      rcases inv.cover_d m hm with h | h
      · exact Or.inl (List.mem_append_left _ h)
      · rcases List.mem_cons.mp h with rfl | h
        · exact Or.inl (List.mem_append_right _ (by simp))
        · exact Or.inr h
    · -- cover_d1
      intro m1 m c hdep hedge hm
      constructor
      · intro hmem
        rcases List.mem_append.mp hmem with h | h
        · exact List.mem_append_left _ ((inv.cover_d1 m1 m c hdep hedge hm).mp h)
        · rw [List.mem_singleton] at h
          subst h
          exact List.mem_append_right _ (List.mem_map_of_mem _ hedge)
      · intro hmem
        rcases List.mem_append.mp hmem with h | h
        · exact List.mem_append_left _ ((inv.cover_d1 m1 m c hdep hedge hm).mpr h)
        · -- m1 is a child of n, so m = n by parent uniqueness
          obtain ⟨q, hq, hq2⟩ := List.mem_map.mp h
          have hedge2 : (q.1, m1) ∈ (getNode acStar n).children := by
            cases q
            simp only at hq2
            subst hq2
            exact hq
          obtain ⟨heqn, _⟩ := WF.parent_unique m1 m n c q.1 hm hnN hedge hedge2
          subst heqn
          exact List.mem_append_right _ (by simp)
    · -- nodup
      have hold := inv.qnodup
      have hdisj : List.Disjoint (dq ++ ((n :: q1') ++ q2))
          ((getNode acStar n).children.map (·.2)) := by
        intro x hx hx2
        have hxd : NodeDepth acStar x (d + 1) := hchild_dep x hx2
        rcases List.mem_append.mp hx with h | h
        · obtain ⟨k, hk1, hk2, hk3⟩ := inv.dq_dep x h
          have := nodeDepth_unique WF hk3 hxd
          omega
        · rcases List.mem_append.mp h with h | h
          · rcases List.mem_cons.mp h with rfl | h
            · have := nodeDepth_unique WF ⟨w, hw, hwl⟩ hxd
              omega
            · have := nodeDepth_unique WF (inv.q1_dep x (List.mem_cons_of_mem _ h)) hxd
              omega
          · -- x ∈ q2 and x is a child of n: n would be dequeued
            obtain ⟨q, hq, hq2⟩ := List.mem_map.mp hx2
            have hedge : (q.1, x) ∈ (getNode acStar n).children := by
              cases q
              simp only at hq2
              subst hq2
              exact hq
            exact hnotdq ((inv.cover_d1 x n q.1 hxd hedge hnN).mpr h)
      have hnodup2 : (dq ++ ((n :: q1') ++ q2) ++
          (getNode acStar n).children.map (·.2)).Nodup := by
        rw [List.nodup_append]
        refine ⟨hold, ?_, hdisj⟩
        have hsnd := children_snd_nodup WF hnN
        simpa using hsnd
      have heq : dq ++ ((n :: q1') ++ q2) ++ (getNode acStar n).children.map (·.2)
          = (dq ++ [n]) ++ (q1' ++ (q2 ++ (getNode acStar n).children.map (·.2))) := by
        simp [List.append_assoc]
      rw [← heq]
      exact hnodup2

/-- Main induction over the BFS loop: starting from any invariant state with
enough fuel, the loop finalizes every node. -/
theorem bfsLoop_correct {patterns : List (List Char)} {acStar : AhoCorasick}
    (WF : TrieWF acStar)
    (hne : ∀ p ∈ patterns, p ≠ [])
    (hio : InsOut patterns acStar)
    (hpw : PatWords patterns acStar) :
    ∀ (fuel : Nat) (ac : AhoCorasick) (dq q1 q2 : List Nat) (d : Nat),
      BfsInv patterns acStar ac dq q1 q2 d →
      acStar.nextNodeId ≤ fuel + dq.length →
      ∀ n k, NodeDepth acStar n k →
        FailCorrectAt acStar (bfsLoop fuel ac 0 (q1 ++ q2)) n
        ∧ OutCorrectAt patterns acStar (bfsLoop fuel ac 0 (q1 ++ q2)) n := by
  intro fuel
  induction fuel with
  | zero =>
    intro ac dq q1 q2 d inv hfuel n k hk
    exfalso
    have hmem : ∀ x ∈ dq, 1 ≤ x ∧ x < acStar.nextNodeId := by
      intro x hx
      obtain ⟨k1, hk1, hk2, hk3⟩ := inv.dq_dep x hx
      have hk3' := hk3
      obtain ⟨w1, hw1, _⟩ := hk3'
      refine ⟨?_, walkT_in_range WF hw1⟩
      have := nodeDepth_pos_ne_zero WF hk3 hk1
      omega
    have hnd : dq.Nodup := ((List.nodup_append).mp inv.qnodup).1
    have hbound := nodup_bounded_length hnd acStar.nextNodeId hmem
    have := WF.pos
    omega
  | succ fuel ih =>
    intro ac dq q1 q2 d inv hfuel n k hk
    cases q1 with
    | cons m q1' =>
      obtain ⟨heq, inv2⟩ := bfs_dequeue WF hne hio hpw inv fuel
      rw [heq]
      refine ih _ (dq ++ [m]) q1' (q2 ++ _) d inv2 ?_ n k hk
      simp only [List.length_append, List.length_singleton]
      omega
    | nil =>
      cases q2 with
      | nil =>
        have hnodeep : ∀ m, ¬ NodeDepth acStar m (d + 1) := by
          intro m hm
          obtain ⟨m1, c, hm1d, hm1e, hm1r⟩ := nodeDepth_parent WF hm
          have hdq : m1 ∈ dq := by
            rcases inv.cover_d m1 hm1d with h | h
            · exact h
            · simp at h
          have := (inv.cover_d1 m m1 c hm hm1e hm1r).mp hdq
          simp at this
        have hkd : k ≤ d := by
          by_contra hgt
          push_neg at hgt
          obtain ⟨m1, hm1⟩ := nodeDepth_ancestor hk (d + 1) (by omega)
          exact hnodeep m1 hm1
        exact inv.fin_ok n k hk (Or.inl hkd)
      | cons m q2' =>
        have inv2 := bfs_shift WF inv
        obtain ⟨heq, inv3⟩ := bfs_dequeue WF hne hio hpw inv2 fuel
        simp only [List.append_nil] at heq
        show FailCorrectAt acStar (bfsLoop (fuel + 1) ac 0 (m :: q2')) n
          ∧ OutCorrectAt patterns acStar (bfsLoop (fuel + 1) ac 0 (m :: q2')) n
        rw [heq]
        refine ih _ (dq ++ [m]) q2' ([] ++ _) (d + 1) inv3 ?_ n k hk
        simp only [List.length_append, List.length_singleton]
        omega

/-! ## The seeding pass of `buildFailLinks` -/

/-- The first step of `buildFailLinks`: the root's fail link is set to the
root itself. -/
def seedRoot (ac : AhoCorasick) : AhoCorasick :=
  setNode ac 0 { getNode ac 0 with failLink := some 0 }

/-- The depth-1 seeding loop of `buildFailLinks`: every root child's fail
link is set to the root.  Note the loop performs no output merge (matching
the C++, which only assigns `fail` and pushes). -/
def seedChildren (ac : AhoCorasick) : AhoCorasick :=
  (getNode (seedRoot ac) 0).children.foldl
    (fun acc p => setNode acc p.2 { getNode acc p.2 with failLink := some 0 })
    (seedRoot ac)

theorem buildFailLinks_eq {ac : AhoCorasick} (h : ac.root = some 0) :
    buildFailLinks ac = bfsLoop (seedChildren ac).nextNodeId (seedChildren ac) 0
      ((getNode (seedRoot ac) 0).children.map (·.2)) := by
  unfold buildFailLinks seedChildren seedRoot
  rw [h]

theorem getNode_seedRoot {ac : AhoCorasick} (h0 : 0 < ac.nodes.length) (i : Nat) :
    getNode (seedRoot ac) i =
      if i = 0 then { getNode ac 0 with failLink := some 0 } else getNode ac i := by
  unfold seedRoot
  by_cases hi : i = 0
  · subst hi
    rw [if_pos rfl]
    exact getNode_setNode_self ac 0 _ h0
  · rw [if_neg hi]
    exact getNode_setNode_ne ac 0 i _ hi

theorem seedRoot_nextNodeId (ac : AhoCorasick) :
    (seedRoot ac).nextNodeId = ac.nextNodeId := rfl

theorem seedRoot_length (ac : AhoCorasick) :
    (seedRoot ac).nodes.length = ac.nodes.length :=
  setNode_length ac 0 _

theorem seedFold_struct :
    ∀ (cs : List (Char × Nat)) (ac : AhoCorasick),
      (cs.foldl (fun acc p =>
          setNode acc p.2 { getNode acc p.2 with failLink := some 0 }) ac).nextNodeId
        = ac.nextNodeId
      ∧ (cs.foldl (fun acc p =>
          setNode acc p.2 { getNode acc p.2 with failLink := some 0 }) ac).nodes.length
        = ac.nodes.length := by
  intro cs
  induction cs with
  | nil => intro ac; exact ⟨rfl, rfl⟩
  | cons q rest ih =>
    intro ac
    simp only [List.foldl_cons]
    obtain ⟨h1, h2⟩ := ih (setNode ac q.2 { getNode ac q.2 with failLink := some 0 })
    exact ⟨by rw [h1, setNode_nextNodeId], by rw [h2, setNode_length]⟩

theorem seedFold_getNode :
    ∀ (cs : List (Char × Nat)) (ac : AhoCorasick) (i : Nat),
      (∀ q ∈ cs, q.2 < ac.nodes.length) →
      getNode (cs.foldl (fun acc p =>
          setNode acc p.2 { getNode acc p.2 with failLink := some 0 }) ac) i
        = if i ∈ cs.map (·.2) then { getNode ac i with failLink := some 0 }
          else getNode ac i := by
  intro cs
  induction cs with
  | nil =>
    intro ac i _
    simp
  | cons q rest ih =>
    intro ac i hlt
    simp only [List.foldl_cons, List.map_cons]
    have hq0 : q.2 < ac.nodes.length := hlt q (List.mem_cons_self q rest)
    have hlt2 : ∀ p ∈ rest,
        p.2 < (setNode ac q.2 { getNode ac q.2 with failLink := some 0 }).nodes.length := by
      intro p hp
      rw [setNode_length]
      exact hlt p (List.mem_cons_of_mem q hp)
    rw [ih (setNode ac q.2 { getNode ac q.2 with failLink := some 0 }) i hlt2]
    by_cases hi : i ∈ rest.map (·.2)
    · rw [if_pos hi, if_pos (List.mem_cons_of_mem _ hi)]
      by_cases hij : i = q.2
      · subst hij
        rw [getNode_setNode_self ac q.2 _ hq0]
      · rw [getNode_setNode_ne ac q.2 i _ hij]
    · rw [if_neg hi]
      by_cases hij : i = q.2
      · subst hij
        rw [if_pos (List.mem_cons_self _ _), getNode_setNode_self ac q.2 _ hq0]
      · rw [if_neg (by simp [List.mem_cons, hij, hi]), getNode_setNode_ne ac q.2 i _ hij]

/-- Depth-1 nodes are exactly the targets of the root's children map. -/
theorem mem_rootChildren_iff_depth1 {acStar : AhoCorasick} (WF : TrieWF acStar) (m : Nat) :
    m ∈ (getNode acStar 0).children.map (·.2) ↔ NodeDepth acStar m 1 := by
  constructor
  · intro hm
    obtain ⟨q, hq, hq2⟩ := List.mem_map.mp hm
    cases q with
    | mk c j =>
      simp only at hq2
      subst hq2
      have hl : lookupChild (getNode acStar 0).children c = some j :=
        mem_lookupChild (WF.keys_nodup 0 WF.pos) hq
      refine ⟨[c], ?_, rfl⟩
      exact (walk_concat acStar [] c j).mpr ⟨0, rfl, hl⟩
  · intro hd
    obtain ⟨w, hw, hwl⟩ := hd
    obtain ⟨c, rfl⟩ := List.length_eq_one.mp hwl
    obtain ⟨m0, hm0, hl⟩ := (walk_concat acStar [] c m).mp hw
    have h0 : m0 = 0 := (Option.some.inj hm0).symm
    subst h0
    exact List.mem_map.mpr ⟨(c, m), lookupChild_mem hl, rfl⟩

/-- After the whole `buildFromPatterns` pipeline (with no empty pattern),
every node of the insertion-phase trie has a correct failure link and a
correct output set. -/
theorem buildFromPatterns_correct (patterns : List (List Char))
    (hne : ∀ p ∈ patterns, p ≠ []) :
    ∀ n k, NodeDepth (patterns.foldl insertPattern acRoot) n k →
      FailCorrectAt (patterns.foldl insertPattern acRoot) (buildFromPatterns patterns) n
      ∧ OutCorrectAt patterns (patterns.foldl insertPattern acRoot)
          (buildFromPatterns patterns) n := by
  obtain ⟨WF, hio, hpw⟩ := insertPhase_spec patterns
  intro n k hk
  have hlen0 : 0 < (patterns.foldl insertPattern acRoot).nodes.length := by
    rw [WF.len_eq]
    exact WF.pos
  have hsr0 : getNode (seedRoot (patterns.foldl insertPattern acRoot)) 0
      = { getNode (patterns.foldl insertPattern acRoot) 0 with failLink := some 0 } := by
    rw [getNode_seedRoot hlen0 0, if_pos rfl]
  have hrc : (getNode (seedRoot (patterns.foldl insertPattern acRoot)) 0).children
      = (getNode (patterns.foldl insertPattern acRoot) 0).children := by
    rw [hsr0]
  have hbdd : ∀ q ∈ (getNode (seedRoot (patterns.foldl insertPattern acRoot)) 0).children,
      q.2 < (seedRoot (patterns.foldl insertPattern acRoot)).nodes.length := by
    intro q hq
    rw [hrc] at hq
    rw [seedRoot_length, WF.len_eq]
    exact (WF.child_gt 0 WF.pos q hq).2
  have hqpos : ∀ q ∈ (getNode (patterns.foldl insertPattern acRoot) 0).children, 0 < q.2 := by
    intro q hq
    exact (WF.child_gt 0 WF.pos q hq).1
  have hg2 : ∀ i, getNode (seedChildren (patterns.foldl insertPattern acRoot)) i
      = if i = 0 then { getNode (patterns.foldl insertPattern acRoot) 0 with failLink := some 0 }
        else if i ∈ ((getNode (patterns.foldl insertPattern acRoot) 0).children.map (·.2))
        then { getNode (patterns.foldl insertPattern acRoot) i with failLink := some 0 }
        else getNode (patterns.foldl insertPattern acRoot) i := by
    intro i
    unfold seedChildren
    rw [seedFold_getNode _ _ i hbdd, hrc]
    by_cases hi0 : i = 0
    · subst hi0
      have hnot : (0 : Nat) ∉ ((getNode (patterns.foldl insertPattern acRoot) 0).children.map (·.2)) := by
        intro hmem
        obtain ⟨q, hq, hq2⟩ := List.mem_map.mp hmem
        have := hqpos q hq
        omega
      rw [if_neg hnot, if_pos rfl, getNode_seedRoot hlen0 0, if_pos rfl]
    · rw [if_neg hi0]
      by_cases hi1 : i ∈ ((getNode (patterns.foldl insertPattern acRoot) 0).children.map (·.2))
      · rw [if_pos hi1, if_pos hi1, getNode_seedRoot hlen0 i, if_neg hi0]
      · rw [if_neg hi1, if_neg hi1, getNode_seedRoot hlen0 i, if_neg hi0]
  have hch2 : ∀ i, (getNode (seedChildren (patterns.foldl insertPattern acRoot)) i).children
      = (getNode (patterns.foldl insertPattern acRoot) i).children := by
    intro i
    rw [hg2 i]
    by_cases hi0 : i = 0
    · subst hi0
      rw [if_pos rfl]
    · rw [if_neg hi0]
      by_cases hi1 : i ∈ ((getNode (patterns.foldl insertPattern acRoot) 0).children.map (·.2))
      · rw [if_pos hi1]
      · rw [if_neg hi1]
  have hnn2 : (seedChildren (patterns.foldl insertPattern acRoot)).nextNodeId
      = (patterns.foldl insertPattern acRoot).nextNodeId := by
    unfold seedChildren
    rw [(seedFold_struct _ _).1, seedRoot_nextNodeId]
  have hlen2 : (seedChildren (patterns.foldl insertPattern acRoot)).nodes.length
      = (patterns.foldl insertPattern acRoot).nodes.length := by
    unfold seedChildren
    rw [(seedFold_struct _ _).2, seedRoot_length]
  have inv : BfsInv patterns (patterns.foldl insertPattern acRoot)
      (seedChildren (patterns.foldl insertPattern acRoot)) []
      ((getNode (patterns.foldl insertPattern acRoot) 0).children.map (·.2)) [] 1 := by
    refine ⟨hch2, hnn2, hlen2, ?_, ?_, ?_, le_refl 1, ?_, ?_, ?_, ?_, ?_, ?_⟩
    · intro m hm
      simp at hm
    · intro m hm
      exact (mem_rootChildren_iff_depth1 WF m).mp hm
    · intro m hm
      simp at hm
    · -- fin_ok at depths 0 and 1
      intro m j hj hcase
      have hj1 : j ≤ 1 := by
        rcases hcase with h | h
        · exact h
        · simp at h
      rcases Nat.le_one_iff_eq_zero_or_eq_one.mp hj1 with rfl | rfl
      · -- depth 0: the root
        have hm0 : m = 0 := by
          obtain ⟨w, hw, hwl⟩ := hj
          rw [List.length_eq_zero] at hwl
          subst hwl
          exact (Option.some.inj hw).symm
        subst hm0
        constructor
        · intro w hw hwne
          exact absurd (walkT_to_zero WF hw) hwne
        · intro w hw p
          have hwnil : w = [] := walkT_to_zero WF hw
          subst hwnil
          have hout : (getNode (seedChildren (patterns.foldl insertPattern acRoot)) 0).output
              = (getNode (patterns.foldl insertPattern acRoot) 0).output := by
            rw [hg2 0, if_pos rfl]
          rw [hout]
          rw [hio 0 p]
          constructor
          · rintro ⟨hp, hwp⟩
            refine ⟨hp, ?_⟩
            rw [walkT_to_zero WF hwp]
          · rintro ⟨hp, hwp⟩
            refine ⟨hp, ?_⟩
            have : lowerStr p = [] := List.suffix_nil.mp hwp
            rw [this]
            rfl
      · -- depth 1: a root child
        have hmem : m ∈ (getNode (patterns.foldl insertPattern acRoot) 0).children.map (·.2) :=
          (mem_rootChildren_iff_depth1 WF m).mpr hj
        have hm0 : m ≠ 0 := by
          obtain ⟨q, hq, hq2⟩ := List.mem_map.mp hmem
          have := hqpos q hq
          omega
        have hnode : getNode (seedChildren (patterns.foldl insertPattern acRoot)) m
            = { getNode (patterns.foldl insertPattern acRoot) m with failLink := some 0 } := by
          rw [hg2 m, if_neg hm0, if_pos hmem]
        obtain ⟨w0, hw0, hwl0⟩ := hj
        constructor
        · intro w hw hwne
          have hww0 : w = w0 := walkT_inj WF m w w0 hw hw0
          refine ⟨[], 0, ⟨List.nil_suffix, ?_, inTrie_nil _, ?_⟩, rfl, ?_⟩
          · intro hweq
            rw [← hweq] at hwne
            exact hwne rfl
          · intro t ht htne _
            have := proper_suffix_length_lt ht htne
            rw [hww0] at this
            omega
          · rw [hnode]
        · intro w hw p
          have hww0 : w = w0 := walkT_inj WF m w w0 hw hw0
          have hout : (getNode (seedChildren (patterns.foldl insertPattern acRoot)) m).output
              = (getNode (patterns.foldl insertPattern acRoot) m).output := by
            rw [hnode]
          rw [hout, hio m p]
          constructor
          · rintro ⟨hp, hwp⟩
            refine ⟨hp, ?_⟩
            rw [walkT_inj WF m (lowerStr p) w hwp hw]
          · rintro ⟨hp, hwp⟩
            refine ⟨hp, ?_⟩
            have hlplen : (lowerStr p).length ≤ w.length := List.IsSuffix.length_le hwp
            have hlpne : lowerStr p ≠ [] := by
              intro hnil
              exact hne p hp (lowerStr_eq_nil.mp hnil)
            have hwlen : w.length = 1 := by
              rw [hww0]
              exact hwl0
            have hlp1 : (lowerStr p).length = 1 := by
              have : 0 < (lowerStr p).length := List.length_pos.mpr hlpne
              omega
            have hlpw : lowerStr p = w :=
              List.IsSuffix.eq_of_length hwp (by omega)
            rw [hlpw]
            exact hw
    · -- untouched: nodes of depth at least two
      intro m j hj hcase
      have hj2 : 2 ≤ j := by
        rcases Nat.lt_or_ge j 2 with h | h
        · exfalso
          exact hcase (Or.inl (by omega))
        · exact h
      have hm0 : m ≠ 0 := by
        intro heq
        subst heq
        have := nodeDepth_zero WF hj
        omega
      have hmem : m ∉ (getNode (patterns.foldl insertPattern acRoot) 0).children.map (·.2) := by
        intro hmem
        have hd1 := (mem_rootChildren_iff_depth1 WF m).mp hmem
        have := nodeDepth_unique WF hj hd1
        omega
      rw [hg2 m, if_neg hm0, if_neg hmem]
    · intro m j h1 h2 _
      omega
    · intro m hm
      exact Or.inr ((mem_rootChildren_iff_depth1 WF m).mpr hm)
    · intro m m1 c _ _ _
      constructor
      · intro h
        simp at h
      · intro h
        simp at h
    · have := children_snd_nodup WF WF.pos
      simpa using this
  have hfuel : (patterns.foldl insertPattern acRoot).nextNodeId
      ≤ (seedChildren (patterns.foldl insertPattern acRoot)).nextNodeId
        + ([] : List Nat).length := by
    rw [hnn2]
    simp
  have hmain := bfsLoop_correct WF hne hio hpw
    (seedChildren (patterns.foldl insertPattern acRoot)).nextNodeId
    (seedChildren (patterns.foldl insertPattern acRoot)) []
    ((getNode (patterns.foldl insertPattern acRoot) 0).children.map (·.2)) [] 1
    inv hfuel n k hk
  rw [List.append_nil] at hmain
  rw [buildFromPatterns_def, buildFailLinks_eq WF.root_eq]
  rw [hrc]
  exact hmain

/-- A fail-link-only record update never changes any children map. -/
theorem children_setNode_fail (ac : AhoCorasick) (j r i : Nat) :
    (getNode (setNode ac j { getNode ac j with failLink := some r }) i).children
      = (getNode ac i).children := by
  by_cases hij : i = j
  · subst hij
    by_cases hlt : i < ac.nodes.length
    · rw [getNode_setNode_self ac i _ hlt]
    · have hle : ac.nodes.length ≤ i := by omega
      have hset : ac.nodes.set i { getNode ac i with failLink := some 0 } = ac.nodes :=
        List.set_eq_of_length_le hle
      unfold setNode
      rw [List.set_eq_of_length_le hle]
  · rw [getNode_setNode_ne ac j i _ hij]

theorem seedFold_children :
    ∀ (cs : List (Char × Nat)) (ac : AhoCorasick) (i : Nat),
      (getNode (cs.foldl (fun acc p =>
          setNode acc p.2 { getNode acc p.2 with failLink := some 0 }) ac) i).children
        = (getNode ac i).children := by
  intro cs
  induction cs with
  | nil => intro ac i; rfl
  | cons q rest ih =>
    intro ac i
    simp only [List.foldl_cons]
    rw [ih _ i, children_setNode_fail]

/-- `buildFromPatterns` keeps the trie structure of the insertion phase:
children maps and the node counter are unchanged by the fail-link pass. -/
theorem buildFromPatterns_struct (patterns : List (List Char)) :
    (∀ i, (getNode (buildFromPatterns patterns) i).children
      = (getNode (patterns.foldl insertPattern acRoot) i).children)
    ∧ (buildFromPatterns patterns).nextNodeId
      = (patterns.foldl insertPattern acRoot).nextNodeId := by
  obtain ⟨WF, _, _⟩ := insertPhase_spec patterns
  rw [buildFromPatterns_def, buildFailLinks_eq WF.root_eq]
  obtain ⟨h1, h2, _, _⟩ := bfsLoop_struct 0
    (seedChildren (patterns.foldl insertPattern acRoot)).nextNodeId
    (seedChildren (patterns.foldl insertPattern acRoot))
    ((getNode (seedRoot (patterns.foldl insertPattern acRoot)) 0).children.map (·.2))
  constructor
  · intro i
    rw [h1 i]
    unfold seedChildren seedRoot
    rw [seedFold_children, children_setNode_fail]
  · rw [h2]
    unfold seedChildren
    rw [(seedFold_struct _ _).1, seedRoot_nextNodeId]

/-- **C3 (amended: patterns non-empty)** — after building the multi-pattern
matcher from any pattern list none of whose patterns is the empty string, for
every trie node `n` other than Root the failure link of `n` is defined and the
output set of `n` is a superset of the output set of `n`'s failure link; this
is established by the breadth-first failure-link construction pass. -/
theorem c3_output_superset_of_fail_link (patterns : List (List Char))
    (hne : ∀ p ∈ patterns, p ≠ []) (n : Nat)
    (hn : n < (buildFromPatterns patterns).nextNodeId) (hn0 : n ≠ 0) :
    ∃ f, (getNode (buildFromPatterns patterns) n).failLink = some f ∧
      ∀ p ∈ (getNode (buildFromPatterns patterns) f).output,
        p ∈ (getNode (buildFromPatterns patterns) n).output := by
  obtain ⟨WF, hio, hpw⟩ := insertPhase_spec patterns
  obtain ⟨hbch, hbnn⟩ := buildFromPatterns_struct patterns
  rw [hbnn] at hn
  obtain ⟨k, hk⟩ := nodeDepth_exists WF hn
  obtain ⟨hfail, hout⟩ := buildFromPatterns_correct patterns hne n k hk
  obtain ⟨w, hw, hwl⟩ := hk
  have hwne : w ≠ [] := by
    intro heq
    subst heq
    exact hn0 (Option.some.inj hw).symm
  obtain ⟨s, f, hmax, hws, hfl⟩ := hfail w hw hwne
  refine ⟨f, hfl, ?_⟩
  intro p hp
  have hfN : f < (patterns.foldl insertPattern acRoot).nextNodeId := walkT_in_range WF hws
  obtain ⟨kf, hkf⟩ := nodeDepth_exists WF hfN
  obtain ⟨hff, houtf⟩ := buildFromPatterns_correct patterns hne f kf hkf
  have hps := (houtf s hws p).mp hp
  exact (hout w hw p).mpr ⟨hps.1, hps.2.trans hmax.1⟩

theorem seedFold_root :
    ∀ (cs : List (Char × Nat)) (ac : AhoCorasick),
      (cs.foldl (fun acc p =>
          setNode acc p.2 { getNode acc p.2 with failLink := some 0 }) ac).root = ac.root := by
  intro cs
  induction cs with
  | nil => intro ac; rfl
  | cons q rest ih =>
    intro ac
    simp only [List.foldl_cons]
    rw [ih _, setNode_root]

theorem buildFromPatterns_root (patterns : List (List Char)) :
    (buildFromPatterns patterns).root = some 0 := by
  obtain ⟨WF, _, _⟩ := insertPhase_spec patterns
  rw [buildFromPatterns_def, buildFailLinks_eq WF.root_eq]
  rw [(bfsLoop_struct 0 _ _ _).2.2.1]
  unfold seedChildren seedRoot
  rw [seedFold_root, setNode_root]
  exact WF.root_eq

/-- Witness for the amended C3 at patterns `["he", "she"]`, node 5 (the node
of `"she"`), whose failure link is node 2 (the node of `"he"`). -/
theorem c3_output_superset_of_fail_link_witness :
    (∀ p ∈ [['h','e'], ['s','h','e']], p ≠ []) ∧
    (∃ f, (getNode (buildFromPatterns [['h','e'], ['s','h','e']]) 5).failLink = some f ∧
      ∀ p ∈ (getNode (buildFromPatterns [['h','e'], ['s','h','e']]) f).output,
        p ∈ (getNode (buildFromPatterns [['h','e'], ['s','h','e']]) 5).output) :=
  ⟨by decide, c3_output_superset_of_fail_link [['h','e'], ['s','h','e']] (by decide) 5
    (by decide) (by decide)⟩

/-! ## Scan correctness -/

/-- Position `i` is an end position of pattern `q` in `text`: the substring of
`text` ending at index `i` equals `q` case-insensitively. -/
def EndsAt (text q : List Char) (i : Nat) : Prop :=
  i < text.length ∧ lowerStr q <:+ lowerStr (text.take (i + 1))

theorem take_append_left {x y : List Char} {n : Nat} (h : n ≤ x.length) :
    (x ++ y).take n = x.take n :=
  List.take_eq_left_iff.mpr (Or.inr h)

/-- End positions strictly inside the prefix are end positions of the
prefix. -/
theorem endsAt_append {pre rest q : List Char} {i : Nat} (h : i < pre.length) :
    EndsAt (pre ++ rest) q i ↔ EndsAt pre q i := by
  unfold EndsAt
  constructor
  · rintro ⟨_, hs⟩
    rw [take_append_left (by omega)] at hs
    exact ⟨h, hs⟩
  · rintro ⟨_, hs⟩
    refine ⟨by simp only [List.length_append]; omega, ?_⟩
    rw [take_append_left (by omega)]
    exact hs

/-- Complete characterization of the `for (pattern : current->output)` loop
body of `scan`: the found-set gains the outputs, the match list gains one
entry per output pattern not already found, and patterns are recorded at most
once. -/
theorem recordMatches_spec (i : Nat) :
    ∀ (outs found : List (List Char)) (ms : List PatternMatch),
      (∀ q, q ∈ (recordMatches i outs found ms).1 ↔ q ∈ found ∨ q ∈ outs)
      ∧ (∀ x, x ∈ (recordMatches i outs found ms).2 ↔
          x ∈ ms ∨ ∃ p, x = ⟨p, i⟩ ∧ p ∈ outs ∧ p ∉ found)
      ∧ ((∀ x ∈ ms, x.pattern ∈ found) →
          ∀ x ∈ (recordMatches i outs found ms).2,
            x.pattern ∈ (recordMatches i outs found ms).1)
      ∧ ((∀ x ∈ ms, x.pattern ∈ found) → (ms.map PatternMatch.pattern).Nodup →
          ((recordMatches i outs found ms).2.map PatternMatch.pattern).Nodup) := by
  intro outs
  induction outs with
  | nil =>
    intro found ms
    refine ⟨?_, ?_, ?_, ?_⟩
    · intro q
      simp [recordMatches]
    · intro x
      simp [recordMatches]
    · intro h x hx
      exact h x hx
    · intro _ h
      exact h
  | cons p rest ih =>
    intro found ms
    by_cases hp : p ∈ found
    · have hstep : recordMatches i (p :: rest) found ms = recordMatches i rest found ms := by
        simp only [recordMatches]
        rw [if_pos hp]
      rw [hstep]
      obtain ⟨ih1, ih2, ih3, ih4⟩ := ih found ms
      refine ⟨?_, ?_, ih3, ih4⟩
      · intro q
        rw [ih1 q]
        constructor
        · rintro (h | h)
          · exact Or.inl h
          · exact Or.inr (List.mem_cons_of_mem p h)
        · rintro (h | h)
          · exact Or.inl h
          · rcases List.mem_cons.mp h with rfl | h
            · exact Or.inl hp
            · exact Or.inr h
      · intro x
        rw [ih2 x]
        constructor
        · rintro (h | ⟨p1, hx, hp1, hnf⟩)
          · exact Or.inl h
          · exact Or.inr ⟨p1, hx, List.mem_cons_of_mem p hp1, hnf⟩
        · rintro (h | ⟨p1, hx, hp1, hnf⟩)
          · exact Or.inl h
          · rcases List.mem_cons.mp hp1 with rfl | h1
            · exact absurd hp hnf
            · exact Or.inr ⟨p1, hx, h1, hnf⟩
    · have hstep : recordMatches i (p :: rest) found ms
          = recordMatches i rest (p :: found) (ms ++ [⟨p, i⟩]) := by
        simp only [recordMatches]
        rw [if_neg hp]
      rw [hstep]
      obtain ⟨ih1, ih2, ih3, ih4⟩ := ih (p :: found) (ms ++ [⟨p, i⟩])
      have hsub' : (∀ x ∈ ms, x.pattern ∈ found) →
          ∀ x ∈ ms ++ [(⟨p, i⟩ : PatternMatch)], x.pattern ∈ p :: found := by
        intro h x hx
        rcases List.mem_append.mp hx with hx | hx
        · exact List.mem_cons_of_mem p (h x hx)
        · rw [List.mem_singleton] at hx
          subst hx
          exact List.mem_cons_self p found
      refine ⟨?_, ?_, ?_, ?_⟩
      · intro q
        rw [ih1 q]
        constructor
        · rintro (h | h)
          · rcases List.mem_cons.mp h with rfl | h1
            · exact Or.inr (List.mem_cons_self q rest)
            · exact Or.inl h1
          · exact Or.inr (List.mem_cons_of_mem p h)
        · rintro (h | h)
          · exact Or.inl (List.mem_cons_of_mem p h)
          · rcases List.mem_cons.mp h with rfl | h1
            · exact Or.inl (List.mem_cons_self q found)
            · exact Or.inr h1
      · intro x
        rw [ih2 x]
        constructor
        · rintro (h | ⟨p1, hx, hp1, hnf⟩)
          · rcases List.mem_append.mp h with h1 | h1
            · exact Or.inl h1
            · rw [List.mem_singleton] at h1
              exact Or.inr ⟨p, h1, List.mem_cons_self p rest, hp⟩
          · refine Or.inr ⟨p1, hx, List.mem_cons_of_mem p hp1, ?_⟩
            intro hf
            exact hnf (List.mem_cons_of_mem p hf)
        · rintro (h | ⟨p1, hx, hp1, hnf⟩)
          · exact Or.inl (List.mem_append_left _ h)
          · by_cases hpp : p1 = p
            · subst hpp
              exact Or.inl (List.mem_append_right _ (by rw [List.mem_singleton]; exact hx))
            · rcases List.mem_cons.mp hp1 with heq | h1
              · exact absurd heq hpp
              · refine Or.inr ⟨p1, hx, h1, ?_⟩
                intro hf
                rcases List.mem_cons.mp hf with heq | hf1
                · exact hpp heq
                · exact hnf hf1
      · intro h
        exact ih3 (hsub' h)
      · intro h hnd
        refine ih4 (hsub' h) ?_
        rw [List.map_append]
        rw [List.nodup_append]
        refine ⟨hnd, by simp, ?_⟩
        intro a ha hb
        simp only [List.map_cons, List.map_nil, List.mem_singleton] at hb
        subst hb
        obtain ⟨x, hx, hxa⟩ := List.mem_map.mp ha
        rw [← hxa] at hp
        exact hp (h x hx)

/-- One `scanAdvance` step keeps the scanner at the node of the longest
trie-suffix of the lowered consumed text. -/
theorem scanAdvance_spec (patterns : List (List Char))
    (hne : ∀ p ∈ patterns, p ≠ []) {w u : List Char} {cur : Nat} (c : Char)
    (hmax : MaxTrieSuffix (patterns.foldl insertPattern acRoot) w u)
    (hcur : walkT (patterns.foldl insertPattern acRoot) u = some cur) :
    ∃ v, MaxTrieSuffix (patterns.foldl insertPattern acRoot) (w ++ [c]) v ∧
      walkT (patterns.foldl insertPattern acRoot) v
        = some (scanAdvance (buildFromPatterns patterns) 0 cur c) := by
  obtain ⟨WF, hio, hpw⟩ := insertPhase_spec patterns
  obtain ⟨hbch, hbnn⟩ := buildFromPatterns_struct patterns
  have hfin : ∀ t n', t <:+ u → walkT (patterns.foldl insertPattern acRoot) t = some n' →
      FailCorrectAt (patterns.foldl insertPattern acRoot) (buildFromPatterns patterns) n' := by
    intro t n' _ hwt
    exact (buildFromPatterns_correct patterns hne n' t.length ⟨t, hwt, rfl⟩).1
  have hcurN : cur < (patterns.foldl insertPattern acRoot).nextNodeId :=
    walkT_in_range WF hcur
  have hulen : u.length ≤ cur := nodeDepth_le_id WF ⟨u, hcur, rfl⟩
  have hfuel : u.length < (buildFromPatterns patterns).nextNodeId := by
    rw [hbnn]
    omega
  obtain ⟨t, f, htu, hwt, heq, hcase⟩ := chase_spec WF hbch
    (buildFromPatterns patterns).nextNodeId u cur c hcur hfin hfuel
  have hadv : scanAdvance (buildFromPatterns patterns) 0 cur c
      = match lookupChild (getNode (buildFromPatterns patterns) f).children c with
        | some nxt => nxt
        | none => f := by
    unfold scanAdvance
    rw [heq]
  rcases hcase with ⟨g, hlg, hmaxA, hwg⟩ | ⟨hlnone, hf0, hmaxB⟩
  · refine ⟨t ++ [c], (maxTrieSuffix_congr (max_snoc_seteq hmax)).mpr hmaxA, ?_⟩
    rw [hadv, hbch f, hlg]
    exact hwg
  · refine ⟨[], (maxTrieSuffix_congr (max_snoc_seteq hmax)).mpr hmaxB, ?_⟩
    rw [hadv, hbch f, hlnone, hf0]
    rfl

/-- At the node of the longest trie-suffix of `w`, the output set is exactly
the patterns whose lowered text is a suffix of `w`. -/
theorem scanOuts_spec (patterns : List (List Char)) (hne : ∀ p ∈ patterns, p ≠ [])
    {w u : List Char} {cur : Nat}
    (hmax : MaxTrieSuffix (patterns.foldl insertPattern acRoot) w u)
    (hcur : walkT (patterns.foldl insertPattern acRoot) u = some cur) :
    ∀ p, p ∈ (getNode (buildFromPatterns patterns) cur).output ↔
      p ∈ patterns ∧ lowerStr p <:+ w := by
  obtain ⟨WF, hio, hpw⟩ := insertPhase_spec patterns
  obtain ⟨_, hout⟩ := buildFromPatterns_correct patterns hne cur u.length ⟨u, hcur, rfl⟩
  intro p
  rw [hout u hcur p]
  constructor
  · rintro ⟨hp, hs⟩
    exact ⟨hp, hs.trans hmax.1⟩
  · rintro ⟨hp, hs⟩
    refine ⟨hp, ?_⟩
    obtain ⟨m, hm⟩ := hpw p hp
    exact suffix_of_maxTrieSuffix hmax hs ⟨m, hm⟩

/-- Main loop invariant of `scan`: the match list collects exactly the
first-occurrence matches of the consumed text, each pattern at most once. -/
theorem scanLoop_spec (patterns : List (List Char)) (hne : ∀ p ∈ patterns, p ≠ []) :
    ∀ (rest pre u : List Char) (cur : Nat) (found : List (List Char))
      (ms : List PatternMatch) (ss : List MatchStep),
      MaxTrieSuffix (patterns.foldl insertPattern acRoot) (lowerStr pre) u →
      walkT (patterns.foldl insertPattern acRoot) u = some cur →
      (∀ q, q ∈ found ↔ q ∈ patterns ∧ ∃ j, EndsAt pre q j) →
      (∀ x, x ∈ ms ↔ x.pattern ∈ patterns ∧ EndsAt pre x.pattern x.position ∧
        ∀ j < x.position, ¬ EndsAt pre x.pattern j) →
      (∀ x ∈ ms, x.pattern ∈ found) →
      (ms.map PatternMatch.pattern).Nodup →
      (∀ x, x ∈ (scanLoop (buildFromPatterns patterns) 0 rest
            pre.length cur found ms ss).1 ↔
          x.pattern ∈ patterns ∧ EndsAt (pre ++ rest) x.pattern x.position ∧
          ∀ j < x.position, ¬ EndsAt (pre ++ rest) x.pattern j)
      ∧ ((scanLoop (buildFromPatterns patterns) 0 rest
            pre.length cur found ms ss).1.map PatternMatch.pattern).Nodup := by
  intro rest
  induction rest with
  | nil =>
    intro pre u cur found ms ss hmax hcur hfound hms hsub hnodup
    rw [List.append_nil]
    exact ⟨hms, hnodup⟩
  | cons ch rest' ih =>
    intro pre u cur found ms ss hmax hcur hfound hms hsub hnodup
    have hlpre : lowerStr (pre ++ [ch]) = lowerStr pre ++ [toLowerChar ch] := by
      simp [lowerStr]
    obtain ⟨v, hmax', hv⟩ := scanAdvance_spec patterns hne (toLowerChar ch) hmax hcur
    rw [← hlpre] at hmax'
    have houts := scanOuts_spec patterns hne hmax' hv
    obtain ⟨hr1, hr2, hr3, hr4⟩ := recordMatches_spec pre.length
      (getNode (buildFromPatterns patterns)
        (scanAdvance (buildFromPatterns patterns) 0 cur (toLowerChar ch))).output found ms
    have htakefull : (pre ++ [ch]).take (pre.length + 1) = pre ++ [ch] :=
      List.take_of_length_le (by simp)
    have hfound' : ∀ q, q ∈ (recordMatches pre.length
        (getNode (buildFromPatterns patterns)
          (scanAdvance (buildFromPatterns patterns) 0 cur (toLowerChar ch))).output
        found ms).1 ↔ q ∈ patterns ∧ ∃ j, EndsAt (pre ++ [ch]) q j := by
      intro q
      rw [hr1 q]
      constructor
      · rintro (hq | hq)
        · obtain ⟨hqp, j, hj⟩ := (hfound q).mp hq
          exact ⟨hqp, j, (endsAt_append hj.1).mpr hj⟩
        · obtain ⟨hqp, hs⟩ := (houts q).mp hq
          refine ⟨hqp, pre.length, by simp, ?_⟩
          rw [htakefull]
          exact hs
      · rintro ⟨hqp, j, hj⟩
        rcases Nat.lt_or_ge j pre.length with hlt | hge
        · exact Or.inl ((hfound q).mpr ⟨hqp, j, (endsAt_append hlt).mp hj⟩)
        · have hjl : j = pre.length := by
            have := hj.1
            simp only [List.length_append, List.length_singleton] at this
            omega
          refine Or.inr ((houts q).mpr ⟨hqp, ?_⟩)
          have := hj.2
          rw [hjl, htakefull] at this
          exact this
    have hms' : ∀ x, x ∈ (recordMatches pre.length
        (getNode (buildFromPatterns patterns)
          (scanAdvance (buildFromPatterns patterns) 0 cur (toLowerChar ch))).output
        found ms).2 ↔ x.pattern ∈ patterns ∧ EndsAt (pre ++ [ch]) x.pattern x.position ∧
          ∀ j < x.position, ¬ EndsAt (pre ++ [ch]) x.pattern j := by
      intro x
      rw [hr2 x]
      constructor
      · rintro (hx | ⟨p, rfl, hpo, hpnf⟩)
        · obtain ⟨hxp, hxe, hxmin⟩ := (hms x).mp hx
          have hxlt : x.position < pre.length := hxe.1
          refine ⟨hxp, (endsAt_append hxlt).mpr hxe, ?_⟩
          intro j hj he
          exact hxmin j hj ((endsAt_append (by omega)).mp he)
        · obtain ⟨hpp, hps⟩ := (houts p).mp hpo
          refine ⟨hpp, ⟨by simp, ?_⟩, ?_⟩
          · show lowerStr p <:+ lowerStr ((pre ++ [ch]).take (pre.length + 1))
            rw [htakefull]
            exact hps
          · intro j hj he
            have hje : EndsAt pre p j := (endsAt_append hj).mp he
            exact hpnf ((hfound p).mpr ⟨hpp, j, hje⟩)
      · rintro ⟨hxp, hxe, hxmin⟩
        rcases Nat.lt_or_ge x.position pre.length with hlt | hge
        · refine Or.inl ((hms x).mpr ⟨hxp, (endsAt_append hlt).mp hxe, ?_⟩)
          intro j hj he
          exact hxmin j hj ((endsAt_append (by omega)).mpr he)
        · have hpos : x.position = pre.length := by
            have := hxe.1
            simp only [List.length_append, List.length_singleton] at this
            omega
          refine Or.inr ⟨x.pattern, ?_, ?_, ?_⟩
          · cases x with
            | mk p i =>
              simp only at hpos
              rw [hpos]
          · refine (houts x.pattern).mpr ⟨hxp, ?_⟩
            have := hxe.2
            rw [hpos, htakefull] at this
            exact this
          · intro hf
            obtain ⟨_, j, hje⟩ := (hfound x.pattern).mp hf
            have hjlt : j < x.position := by
              have := hje.1
              omega
            exact hxmin j hjlt ((endsAt_append hje.1).mpr hje)
    have hstep : scanLoop (buildFromPatterns patterns) 0 (ch :: rest')
        pre.length cur found ms ss
        = scanLoop (buildFromPatterns patterns) 0 rest' (pre.length + 1)
            (scanAdvance (buildFromPatterns patterns) 0 cur (toLowerChar ch))
            (recordMatches pre.length
              (getNode (buildFromPatterns patterns)
                (scanAdvance (buildFromPatterns patterns) 0 cur (toLowerChar ch))).output
              found ms).1
            (recordMatches pre.length
              (getNode (buildFromPatterns patterns)
                (scanAdvance (buildFromPatterns patterns) 0 cur (toLowerChar ch))).output
              found ms).2
            (ss ++ [⟨ch.toNat, ch,
              (getNode (buildFromPatterns patterns)
                (scanAdvance (buildFromPatterns patterns) 0 cur (toLowerChar ch))).id,
              (getNode (buildFromPatterns patterns)
                (scanAdvance (buildFromPatterns patterns) 0 cur (toLowerChar ch))).output⟩]) :=
      rfl
    have hres := ih (pre ++ [ch]) v
      (scanAdvance (buildFromPatterns patterns) 0 cur (toLowerChar ch))
      (recordMatches pre.length
        (getNode (buildFromPatterns patterns)
          (scanAdvance (buildFromPatterns patterns) 0 cur (toLowerChar ch))).output
        found ms).1
      (recordMatches pre.length
        (getNode (buildFromPatterns patterns)
          (scanAdvance (buildFromPatterns patterns) 0 cur (toLowerChar ch))).output
        found ms).2
      (ss ++ [⟨ch.toNat, ch,
        (getNode (buildFromPatterns patterns)
          (scanAdvance (buildFromPatterns patterns) 0 cur (toLowerChar ch))).id,
        (getNode (buildFromPatterns patterns)
          (scanAdvance (buildFromPatterns patterns) 0 cur (toLowerChar ch))).output⟩])
      hmax' hv hfound' hms' (hr3 hsub) (hr4 hsub hnodup)
    simp only [List.length_append, List.length_singleton, List.append_assoc,
      List.singleton_append] at hres
    rw [hstep]
    exact hres

/-- **C1 (amended: patterns non-empty)** — for every pattern set with no
empty pattern and every text, the scan of the built matcher reports `p` at
position `i` iff the substring of the text ending at `i` equals `p`
case-insensitively and `i` is the first such ending position; consequently
each pattern appears at most once in the match list.  (Scanning is a pure
function of the automaton and the text, so identical rescans are identical by
construction.) -/
theorem c1_scan_first_occurrence (patterns : List (List Char))
    (hne : ∀ p ∈ patterns, p ≠ []) (text : List Char) (pid : Nat)
    (hex asc : List Char) :
    (∀ x, x ∈ ((buildFromPatterns patterns).scan text pid hex asc).matchList ↔
        x.pattern ∈ patterns ∧ EndsAt text x.pattern x.position ∧
          ∀ j < x.position, ¬ EndsAt text x.pattern j)
    ∧ (((buildFromPatterns patterns).scan text pid hex asc).matchList.map
        PatternMatch.pattern).Nodup := by
  have hroot := buildFromPatterns_root patterns
  have hscan : (buildFromPatterns patterns).scan text pid hex asc
      = ⟨pid, hex, asc,
          (scanLoop (buildFromPatterns patterns) 0 text 0 0 [] [] []).1,
          (scanLoop (buildFromPatterns patterns) 0 text 0 0 [] [] []).2⟩ := by
    unfold AhoCorasick.scan
    rw [hroot]
  rw [hscan]
  have hmax0 : MaxTrieSuffix (patterns.foldl insertPattern acRoot) (lowerStr []) [] := by
    refine ⟨List.nil_suffix, inTrie_nil _, ?_⟩
    intro t ht _
    exact List.IsSuffix.length_le ht
  have hres := scanLoop_spec patterns hne text [] [] 0 [] [] [] hmax0 rfl
    (by intro q; simp [EndsAt]) (by intro x; simp [EndsAt]) (by intro x hx; simp at hx)
    (by simp)
  simp only [List.nil_append, List.length_nil] at hres
  exact hres

/-- Witness for the amended C1: patterns `["he", "she"]` scanned over
`"ushers"`. -/
theorem c1_scan_first_occurrence_witness :
    (∀ p ∈ [['h','e'], ['s','h','e']], p ≠ []) ∧
    ((∀ x, x ∈ ((buildFromPatterns [['h','e'], ['s','h','e']]).scan
          ['u','s','h','e','r','s'] 7 [] []).matchList ↔
        x.pattern ∈ [['h','e'], ['s','h','e']] ∧
          EndsAt ['u','s','h','e','r','s'] x.pattern x.position ∧
          ∀ j < x.position, ¬ EndsAt ['u','s','h','e','r','s'] x.pattern j)
      ∧ (((buildFromPatterns [['h','e'], ['s','h','e']]).scan
          ['u','s','h','e','r','s'] 7 [] []).matchList.map PatternMatch.pattern).Nodup) :=
  ⟨by decide, c1_scan_first_occurrence [['h','e'], ['s','h','e']] (by decide)
    ['u','s','h','e','r','s'] 7 [] []⟩

end NPIPV
